import Mathlib

/-!
Verification of the linguify object-utility core (`flatten`, `unflatten`,
`clear`, `sort`, `isAssignable`) against its natural-language specification.
The JavaScript data model is embedded shallowly: a `Value` is a JSON-like
tree; objects are association lists recording properties in iteration order.
-/

set_option maxHeartbeats 1000000

namespace Linguify

/-- JavaScript values as manipulated by the library: strings, numbers,
booleans, null, plain objects (association lists in iteration order) and
arrays. -/
inductive Value where
  | vStr (s : String)
  | vNum (n : Int)
  | vBool (b : Bool)
  | vNull
  | vObj (entries : List (String × Value))
  | vArr (elems : List Value)
deriving Repr

mutual

/-- Structural equality test on values, used to build `DecidableEq`. -/
def beqValue : Value → Value → Bool
  | .vStr s, .vStr t => s == t
  | .vNum m, .vNum n => m == n
  | .vBool a, .vBool b => a == b
  | .vNull, .vNull => true
  | .vObj l, .vObj m => beqEntries l m
  | .vArr x, .vArr y => beqElems x y
  | _, _ => false

/-- Structural equality test on entry lists. -/
def beqEntries : List (String × Value) → List (String × Value) → Bool
  | [], [] => true
  | (k, v) :: l, (k2, v2) :: m => k == k2 && beqValue v v2 && beqEntries l m
  | _, _ => false

/-- Structural equality test on element lists. -/
def beqElems : List Value → List Value → Bool
  | [], [] => true
  | v :: l, w :: m => beqValue v w && beqElems l m
  | _, _ => false

end

mutual

theorem beqValue_iff : ∀ (a b : Value), beqValue a b = true ↔ a = b
  | .vStr s, b => by cases b <;> simp [beqValue]
  | .vNum n, b => by cases b <;> simp [beqValue]
  | .vBool c, b => by cases b <;> simp [beqValue]
  | .vNull, b => by cases b <;> simp [beqValue]
  | .vObj l, .vObj m => by
    simp only [beqValue, Value.vObj.injEq]
    exact beqEntries_iff l m
  | .vObj l, .vStr s => by simp [beqValue]
  | .vObj l, .vNum n => by simp [beqValue]
  | .vObj l, .vBool c => by simp [beqValue]
  | .vObj l, .vNull => by simp [beqValue]
  | .vObj l, .vArr y => by simp [beqValue]
  | .vArr x, .vArr y => by
    simp only [beqValue, Value.vArr.injEq]
    exact beqElems_iff x y
  | .vArr x, .vStr s => by simp [beqValue]
  | .vArr x, .vNum n => by simp [beqValue]
  | .vArr x, .vBool c => by simp [beqValue]
  | .vArr x, .vNull => by simp [beqValue]
  | .vArr x, .vObj m => by simp [beqValue]

theorem beqEntries_iff : ∀ (l m : List (String × Value)), beqEntries l m = true ↔ l = m
  | [], [] => by simp [beqEntries]
  | [], _ :: _ => by simp [beqEntries]
  | _ :: _, [] => by simp [beqEntries]
  | (k, v) :: l, (k2, v2) :: m => by
    simp only [beqEntries, Bool.and_eq_true, beq_iff_eq, List.cons.injEq, Prod.mk.injEq,
      and_assoc]
    rw [beqValue_iff v v2, beqEntries_iff l m]

theorem beqElems_iff : ∀ (x y : List Value), beqElems x y = true ↔ x = y
  | [], [] => by simp [beqElems]
  | [], _ :: _ => by simp [beqElems]
  | _ :: _, [] => by simp [beqElems]
  | v :: x, w :: y => by
    simp only [beqElems, Bool.and_eq_true, List.cons.injEq]
    rw [beqValue_iff v w, beqElems_iff x y]

end

instance : DecidableEq Value := fun a b => decidable_of_iff _ (beqValue_iff a b)

/-- The two kinds of runtime error reachable in the library: the explicit
`InvalidArgument` throw guarding `flatten` and `unflatten`, and the
strict-mode TypeError raised by assigning a property on a primitive. -/
inductive JsError where
  | invalidArgument
  | typeError
deriving DecidableEq, Repr

/-- The test `object[key] !== null && typeof object[key] == 'object'`, which
on the values of this model coincides with lodash `_.isObject`: true exactly
for plain objects and arrays (`typeof null == 'object'` is screened off by
the explicit null check, and `_.isObject(null)` is false). -/
def isObjectJs : Value → Bool
  | .vObj _ => true
  | .vArr _ => true
  | _ => false

/-- JavaScript truthiness of a value. -/
def truthy : Value → Bool
  | .vStr s => !(s == "")
  | .vNum n => !(n == 0)
  | .vBool b => b
  | .vNull => false
  | .vObj _ => true
  | .vArr _ => true

/-- Property read `o[k]` on an object. -/
def getKey : List (String × Value) → String → Option Value
  | [], _ => none
  | (k, v) :: rest, key => if k == key then some v else getKey rest key

/-- JavaScript property assignment `o[k] = v` on an object: an existing key
keeps its position and receives the new value, a fresh key is appended. -/
def setKey : List (String × Value) → String → Value → List (String × Value)
  | [], key, v => [(key, v)]
  | (k, w) :: rest, key, v =>
    if k == key then (key, v) :: rest else (k, w) :: setKey rest key v

/-- A sequence of property assignments `target[k] = v`, as performed by the
source's accumulation loops and by lodash `_.assign`. -/
def assignEntries (acc : List (String × Value)) (xs : List (String × Value)) :
    List (String × Value) :=
  xs.foldl (fun a p => setKey a p.1 p.2) acc

/-- Keys of an object in iteration order. -/
def keys (l : List (String × Value)) : List String := l.map Prod.fst

/-- `for ... in` enumeration of an array starting at index `i`: its indices
as decimal strings, in ascending order, paired with the elements. -/
def arrEntries (i : Nat) : List Value → List (String × Value)
  | [] => []
  | v :: rest => (toString i, v) :: arrEntries (i + 1) rest

/-- Scanner for JavaScript `String.prototype.split` with a nonempty
separator: walk the string a character at a time; on a separator occurrence
emit the accumulated segment and skip the separator (the positive `skip`
counter consumes its remaining characters); at the end emit the pending
segment. -/
def splitAux (sep : List Char) : List Char → Nat → List Char → List (List Char)
  | [], _, cur => [cur.reverse]
  | _ :: rest, skip + 1, cur => splitAux sep rest skip cur
  | c :: rest, 0, cur =>
    if sep.isPrefixOf (c :: rest) then
      cur.reverse :: splitAux sep rest (sep.length - 1) []
    else
      splitAux sep rest 0 (c :: cur)

/-- JavaScript `String.prototype.split` on character lists: cut at each
leftmost occurrence of the separator; an empty separator splits into single
characters. -/
def splitChars (sep : List Char) (s : List Char) : List (List Char) :=
  if sep.isEmpty then s.map ([·]) else splitAux sep s 0 []

/-- JavaScript `key.split(separator)` on strings. -/
def splitJs (sep s : String) : List String :=
  (splitChars sep.data s.data).map fun l => ⟨l⟩

example : splitJs "." "a.b" = ["a", "b"] := by decide

example : splitJs "." "a." = ["a", ""] := by decide

example : splitJs "." "" = [""] := by decide

example : splitJs "aa" "xaaay" = ["x", "ay"] := by decide

mutual

/-- Source `flatten`, inner recursion on a value already known to pass the
`isObjectJs` guard. A non-object value enumerates no own properties, so the
catch-all returns the empty accumulation (that case is unreachable: every
call is guarded by `isObjectJs`). -/
def flattenValue (sep : String) : Value → List (String × Value)
  | .vObj l => flattenObjEntries sep l []
  | .vArr a => flattenArrEntries sep 0 a []
  | _ => []

/-- The `for key in object` loop of `flatten` over an object's entries,
threading the `flattened` accumulator: an object-valued entry is flattened
recursively and its entries re-keyed under `key ++ sep`, any other entry is
copied unchanged. -/
def flattenObjEntries (sep : String) :
    List (String × Value) → List (String × Value) → List (String × Value)
  | [], acc => acc
  | (k, v) :: rest, acc =>
    if isObjectJs v then
      flattenObjEntries sep rest
        (assignEntries acc ((flattenValue sep v).map fun p => (k ++ sep ++ p.1, p.2)))
    else
      flattenObjEntries sep rest (setKey acc k v)

/-- The same loop when the value being flattened is an array, whose
enumeration yields decimal index keys. -/
def flattenArrEntries (sep : String) (i : Nat) :
    List Value → List (String × Value) → List (String × Value)
  | [], acc => acc
  | v :: rest, acc =>
    if isObjectJs v then
      flattenArrEntries sep (i + 1) rest
        (assignEntries acc ((flattenValue sep v).map fun p => (toString i ++ sep ++ p.1, p.2)))
    else
      flattenArrEntries sep (i + 1) rest (setKey acc (toString i) v)

end

instance {ε α : Type} [DecidableEq ε] [DecidableEq α] : DecidableEq (Except ε α) := fun a b =>
  match a, b with
  | .ok x, .ok y =>
    if h : x = y then isTrue (by rw [h]) else isFalse (by intro hh; cases hh; exact h rfl)
  | .error x, .error y =>
    if h : x = y then isTrue (by rw [h]) else isFalse (by intro hh; cases hh; exact h rfl)
  | .ok _, .error _ => isFalse (by intro hh; cases hh)
  | .error _, .ok _ => isFalse (by intro hh; cases hh)

/-- Source `flatten`: the `_.isObject` guard throwing `InvalidArgument`,
then the accumulation loop. -/
def flatten (object : Value) (sep : String) : Except JsError (List (String × Value)) :=
  if isObjectJs object then .ok (flattenValue sep object) else .error .invalidArgument

example : flatten (.vObj [("a", .vObj [("b", .vNum 1), ("c", .vNum 2)])]) "." =
    .ok [("a.b", .vNum 1), ("a.c", .vNum 2)] := by decide

example : flatten (.vNum 3) "." = .error .invalidArgument := by decide

example : flatten (.vObj [("a", .vArr [.vNum 1, .vNum 2])]) "." =
    .ok [("a.0", .vNum 1), ("a.1", .vNum 2)] := by decide

/-- `for ... in` enumeration of a value: an object yields its entries, an
array its index-keyed elements, a primitive nothing. -/
def jsEntries : Value → List (String × Value)
  | .vObj l => l
  | .vArr a => arrEntries 0 a
  | _ => []

/-- Decimal digit accumulation for reading a numeric string. -/
def decNatAux : Nat → List Char → Option Nat
  | acc, [] => some acc
  | acc, c :: rest =>
    if c.isDigit then decNatAux (acc * 10 + (c.toNat - 48)) rest else none

/-- Canonical decimal array index denoted by a string, if any: the digits
read back as a number whose decimal rendering is the string itself. -/
def parseIndex (s : String) : Option Nat :=
  match decNatAux 0 s.data with
  | some n => if toString n == s then some n else none
  | none => none

/-- Array element read `a[p]` for a string key: a canonical in-range index
yields the element. Non-index array properties are not represented in this
model, so any other key reads as absent. -/
def arrGet (a : List Value) (p : String) : Option Value :=
  match parseIndex p with
  | some i => a.get? i
  | none => none

/-- Array element write `a[p] = v` for a string key: a canonical index
updates in range or appends at the length. A write past the length (which
creates holes) or to a non-index property is not representable in this
model and leaves the array unchanged; no verified claim depends on it. -/
def arrSet (a : List Value) (p : String) (v : Value) : List Value :=
  match parseIndex p with
  | some i =>
    if i < a.length then a.set i v
    else if i == a.length then a ++ [v]
    else a
  | none => a

/-- The inner `for i in 0..keyParts.length` walk of `unflatten` for one flat
key, acting on the current node. An empty key part is skipped. On the last
part the value is assigned at the current node; on an intermediate part the
walk moves to `currentNode[keyPart] || {}` (reusing a truthy existing value,
replacing a falsy or missing one by a fresh object) after assigning it back,
and the final state of that child is written back here. Assigning a property
on a primitive raises the strict-mode TypeError. -/
def insertParts (value : Value) : Value → List String → Except JsError Value
  | node, [] => .ok node
  | node, [p] =>
    if p == "" then .ok node
    else
      match node with
      | .vObj l => .ok (.vObj (setKey l p value))
      | .vArr a => .ok (.vArr (arrSet a p value))
      | _ => .error .typeError
  | node, p :: rest =>
    if p == "" then insertParts value node rest
    else
      match node with
      | .vObj l => do
        let child := match getKey l p with
          | some w => if truthy w then w else .vObj []
          | none => .vObj []
        let child2 ← insertParts value child rest
        .ok (.vObj (setKey l p child2))
      | .vArr a => do
        let child := match arrGet a p with
          | some w => if truthy w then w else .vObj []
          | none => .vObj []
        let child2 ← insertParts value child rest
        .ok (.vArr (arrSet a p child2))
      | _ => .error .typeError

/-- The same walk starting at the root accumulator `nested`, which is always
a plain object. -/
def insertRoot (value : Value) (l : List (String × Value)) :
    List String → Except JsError (List (String × Value))
  | [] => .ok l
  | [p] => if p == "" then .ok l else .ok (setKey l p value)
  | p :: rest =>
    if p == "" then insertRoot value l rest
    else do
      let child := match getKey l p with
        | some w => if truthy w then w else .vObj []
        | none => .vObj []
      let child2 ← insertParts value child rest
      .ok (setKey l p child2)

/-- The `for key in flatObject` loop of `unflatten`: each flat key is split
by the separator and its value inserted along the resulting parts. -/
def unflattenEntries (sep : String) :
    List (String × Value) → List (String × Value) → Except JsError (List (String × Value))
  | [], acc => .ok acc
  | (k, v) :: rest, acc => do
    let acc2 ← insertRoot v acc (splitJs sep k)
    unflattenEntries sep rest acc2

/-- Source `unflatten`: the `_.isObject` guard throwing `InvalidArgument`,
then the per-key insertion loop building `nested` from an empty object. -/
def unflatten (flatObject : Value) (sep : String) : Except JsError Value :=
  if isObjectJs flatObject then
    (unflattenEntries sep (jsEntries flatObject) []).map .vObj
  else .error .invalidArgument

example : unflatten (.vObj [("a.b", .vNum 1), ("a.c", .vNum 2)]) "." =
    .ok (.vObj [("a", .vObj [("b", .vNum 1), ("c", .vNum 2)])]) := by decide

example : unflatten (.vObj [("a.", .vNum 5)]) "." = .ok (.vObj [("a", .vObj [])]) := by decide

example : unflatten (.vObj [("a", .vNum 5), ("a.b", .vNum 1)]) "." =
    .error .typeError := by decide

example : unflatten (.vObj [("a", .vNum 0), ("a.b", .vNum 1)]) "." =
    .ok (.vObj [("a", .vObj [("b", .vNum 1)])]) := by decide

example : unflatten (.vNull) "." = .error .invalidArgument := by decide

/-- Entries whose value fails `_.isObject`, in order: the source's
`_.omitBy(object, _.isObject)`. -/
def nonObjEntries (l : List (String × Value)) : List (String × Value) :=
  l.filter fun p => !isObjectJs p.2

mutual

/-- Source `clear` in its default mode, producing the entry list of the
result: `_.pickBy(_.isObject)` then `.mapValues(clear)` then
`.omitBy(_.isEmpty)` fused into one pass over the entries (the three stages
are pointwise and order-preserving), followed by `.assign` of the non-object
entries. The recursive `mapValues(clear)` call passes the key as the options
argument, so the nested calls always run in default mode. -/
def clearDefault : Value → List (String × Value)
  | .vObj l => assignEntries (clearObjsD l) (nonObjEntries l)
  | .vArr a => assignEntries (clearArrD 0 a) (nonObjEntries (arrEntries 0 a))
  | _ => []

/-- The fused `pickBy isObject / mapValues clear / omitBy isEmpty` pass over
object entries. -/
def clearObjsD : List (String × Value) → List (String × Value)
  | [] => []
  | (k, v) :: rest =>
    if isObjectJs v then
      (let m := clearDefault v
       if m.isEmpty then [] else [(k, Value.vObj m)]) ++ clearObjsD rest
    else clearObjsD rest

/-- The same pass over an array's index-keyed enumeration. -/
def clearArrD (i : Nat) : List Value → List (String × Value)
  | [] => []
  | v :: rest =>
    (if isObjectJs v then
      let m := clearDefault v
      if m.isEmpty then [] else [(toString i, Value.vObj m)]
     else []) ++ clearArrD (i + 1) rest

/-- Source `clear` with `skipFirstDepth = true`: `_.pickBy(_.isObject)` then
`.mapValues(clear)` (no emptiness pruning at this depth), then `.assign` of
the non-object entries, then `.mapValues(v => _.isObject(v) ? v : {})`. -/
def clearSkip : Value → List (String × Value)
  | .vObj l =>
    (assignEntries (clearObjsS l) (nonObjEntries l)).map fun p =>
      (p.1, if isObjectJs p.2 then p.2 else Value.vObj [])
  | .vArr a =>
    (assignEntries (clearArrS 0 a) (nonObjEntries (arrEntries 0 a))).map fun p =>
      (p.1, if isObjectJs p.2 then p.2 else Value.vObj [])
  | _ => []

/-- The fused `pickBy isObject / mapValues clear` pass over object entries
(skip mode keeps empty results). -/
def clearObjsS : List (String × Value) → List (String × Value)
  | [] => []
  | (k, v) :: rest =>
    if isObjectJs v then (k, Value.vObj (clearDefault v)) :: clearObjsS rest
    else clearObjsS rest

/-- The same pass over an array's index-keyed enumeration. -/
def clearArrS (i : Nat) : List Value → List (String × Value)
  | [] => []
  | v :: rest =>
    (if isObjectJs v then [(toString i, Value.vObj (clearDefault v))] else []) ++
      clearArrS (i + 1) rest

end

/-- Source `clear`: dispatch on `skipFirstDepth`; the lodash chain always
ends in a plain object. -/
def clear (object : Value) (skipFirstDepth : Bool) : Value :=
  .vObj (if skipFirstDepth then clearSkip object else clearDefault object)

example : clear (.vObj [("a", .vObj []), ("b", .vObj [("c", .vNum 1)])]) false =
    .vObj [("b", .vObj [("c", .vNum 1)])] := by decide

example : clear (.vObj [("a", .vObj []), ("b", .vNum 1)]) true =
    .vObj [("a", .vObj []), ("b", .vObj [])] := by decide

/-- JavaScript string comparison `a < b` as performed by the sort: strict
lexicographic comparison, character by character. -/
def ltChars : List Char → List Char → Bool
  | [], [] => false
  | [], _ :: _ => true
  | _ :: _, [] => false
  | a :: as, b :: bs => if a < b then true else if b < a then false else ltChars as bs

/-- String comparison on the underlying character lists. -/
def ltStr (a b : String) : Bool := ltChars a.data b.data

/-- Stable insertion of a pair after every pair whose key is not greater:
one step of a stable sort by key. -/
def insertPair (p : String × Value) : List (String × Value) → List (String × Value)
  | [] => [p]
  | q :: rest => if ltStr p.1 q.1 then p :: q :: rest else q :: insertPair p rest

/-- Lodash `_.sortBy(pairs, 0)`: a stable sort of the pairs by their key
string, here as a left fold of stable insertions. -/
def sortPairs (l : List (String × Value)) : List (String × Value) :=
  l.foldl (fun acc p => insertPair p acc) []

mutual

/-- Source `sort`: `toPairs` (an array enumerates index-keyed elements, a
primitive has no pairs), recursive mapping over object-like values, stable
sort by key, and `fromPairs` rebuilding an object by assignment. -/
def sortValue : Value → Value
  | .vObj l => .vObj (assignEntries [] (sortPairs (sortEntriesRec l)))
  | .vArr a => .vObj (assignEntries [] (sortPairs (sortArrRec 0 a)))
  | _ => .vObj (assignEntries [] (sortPairs []))

/-- The `map` stage of `sort` over object entries: recurse into object-like
values, keep the rest. -/
def sortEntriesRec : List (String × Value) → List (String × Value)
  | [] => []
  | (k, v) :: rest => (k, if isObjectJs v then sortValue v else v) :: sortEntriesRec rest

/-- The `map` stage of `sort` over an array's index-keyed enumeration. -/
def sortArrRec (i : Nat) : List Value → List (String × Value)
  | [] => []
  | v :: rest => (toString i, if isObjectJs v then sortValue v else v) :: sortArrRec (i + 1) rest

end

example : sortValue (.vObj [("b", .vNum 1), ("a", .vObj [("d", .vNum 1), ("c", .vNum 2)])]) =
    .vObj [("a", .vObj [("c", .vNum 2), ("d", .vNum 1)]), ("b", .vNum 1)] := by decide

/-- The reduce of `isAssignable` producing the cumulative path points
`[a, a.b, a.b.c, ...]`; the join uses a hard-coded dot, whatever the
separator option. -/
def pathPointsAux (pre : String) : List String → List String
  | [] => []
  | s :: rest => (pre ++ "." ++ s) :: pathPointsAux (pre ++ "." ++ s) rest

/-- Cumulative path points of a segment list. -/
def pathPoints : List String → List String
  | [] => []
  | s :: rest => s :: pathPointsAux s rest

/-- Lodash `_.get` along a parsed path: walk object entries and canonical
array indices; reading into a primitive yields undefined (character access
into strings is not represented; no verified claim touches it). -/
def getPath (v : Value) : List String → Option Value
  | [] => some v
  | p :: rest =>
    match v with
    | .vObj l =>
      match getKey l p with
      | some w => getPath w rest
      | none => none
    | .vArr a =>
      match arrGet a p with
      | some w => getPath w rest
      | none => none
    | _ => none

/-- The test `typeof v == 'object'`: true for objects, arrays and null. -/
def typeofObject : Value → Bool
  | .vObj _ => true
  | .vArr _ => true
  | .vNull => true
  | _ => false

/-- The `for (const point of pathPoints)` loop of `isAssignable`: the first
point that `_.has` (here: the path resolves, this model having no undefined
values) while `typeof _.get(...) != 'object'`. Lodash parses each point by
splitting on the hard-coded dots introduced by the join. -/
def firstBadPoint (object : Value) : List String → Option String
  | [] => none
  | pt :: rest =>
    match getPath object (splitJs "." pt) with
    | some w => if typeofObject w then firstBadPoint object rest else some pt
    | none => firstBadPoint object rest

/-- Source `isAssignable`: a string path is split by the separator, an array
path used as is; returns the first invalid point, or the boolean true. -/
def isAssignable (object : Value) (path : String ⊕ List String) (sep : String) :
    String ⊕ Bool :=
  let pathArray := match path with
    | .inl s => splitJs sep s
    | .inr segs => segs
  match firstBadPoint object (pathPoints pathArray) with
  | some pt => .inl pt
  | none => .inr true

example : isAssignable (.vObj [("a", .vObj [("b", .vNum 1)])]) (.inl "a.b.c") "." =
    .inl "a.b" := by decide

example : isAssignable (.vObj [("a", .vObj [("b", .vNum 1)])]) (.inl "a.x") "." =
    .inr true := by decide

example : isAssignable (.vObj [("a", .vNull)]) (.inl "a.b") "." = .inr true := by decide

/-! ### Basic lemmas about object entry lists -/

/-- Membership test of a key among an object's keys. -/
def memKey (k : String) : List (String × Value) → Bool
  | [] => false
  | (k2, _) :: rest => k == k2 || memKey k rest

/-- The keys of an object are pairwise distinct, as JavaScript guarantees
for any real object. -/
def nodupKeysB : List (String × Value) → Bool
  | [] => true
  | (k, _) :: rest => !memKey k rest && nodupKeysB rest

theorem memKey_append (k : String) (l m : List (String × Value)) :
    memKey k (l ++ m) = (memKey k l || memKey k m) := by
  induction l with
  | nil => simp [memKey]
  | cons p rest ih =>
    obtain ⟨k2, v⟩ := p
    simp [memKey, ih, Bool.or_assoc]

theorem setKey_of_not_mem (l : List (String × Value)) (k : String) (v : Value)
    (h : memKey k l = false) : setKey l k v = l ++ [(k, v)] := by
  induction l with
  | nil => simp [setKey]
  | cons p rest ih =>
    obtain ⟨k2, w⟩ := p
    simp only [memKey, Bool.or_eq_false_iff] at h
    have hk : (k2 == k) = false := by
      rw [beq_eq_false_iff_ne] at h ⊢
      exact fun hh => h.1 hh.symm
    simp only [setKey, hk, Bool.false_eq_true, if_false, ih h.2, List.cons_append]

theorem assignEntries_nil (acc : List (String × Value)) : assignEntries acc [] = acc := rfl

theorem assignEntries_cons (acc : List (String × Value)) (p : String × Value)
    (xs : List (String × Value)) :
    assignEntries acc (p :: xs) = assignEntries (setKey acc p.1 p.2) xs := rfl

theorem assignEntries_eq_append (acc xs : List (String × Value))
    (h : ∀ p ∈ xs, memKey p.1 acc = false) (hx : nodupKeysB xs = true) :
    assignEntries acc xs = acc ++ xs := by
  induction xs generalizing acc with
  | nil => simp [assignEntries_nil]
  | cons p rest ih =>
    obtain ⟨k, v⟩ := p
    rw [assignEntries_cons]
    simp only [nodupKeysB, Bool.and_eq_true, Bool.not_eq_true'] at hx
    rw [setKey_of_not_mem acc k v (h (k, v) (by simp))]
    rw [ih (acc ++ [(k, v)])]
    · simp
    · intro q hq
      rw [memKey_append]
      have h1 := h q (by simp [hq])
      have h2 : (q.1 == k) = false := by
        by_contra hne
        rw [Bool.not_eq_false, beq_iff_eq] at hne
        have : memKey q.1 rest = true := by
          clear h ih hx
          induction rest with
          | nil => simp at hq
          | cons r rs ihr =>
            rcases List.mem_cons.mp hq with hh | hh
            · subst hh
              simp [memKey]
            · obtain ⟨k3, w3⟩ := r
              simp [memKey, ihr hh]
        rw [hne] at this
        rw [this] at hx
        simp at hx
      simp [memKey, h1, h2]
    · exact hx.2

/-! ### C2: arrays under flatten -/

theorem flattenArr_eq_obj (sep : String) (i : Nat) (a : List Value)
    (acc : List (String × Value)) :
    flattenArrEntries sep i a acc = flattenObjEntries sep (arrEntries i a) acc := by
  induction a generalizing i acc with
  | nil => simp [flattenArrEntries, arrEntries, flattenObjEntries]
  | cons v rest ih =>
    simp only [flattenArrEntries, arrEntries, flattenObjEntries]
    by_cases h : isObjectJs v = true
    · simp only [h, if_true]
      exact ih (i + 1) _
    · rw [Bool.not_eq_true] at h
      simp only [h, Bool.false_eq_true, if_false]
      exact ih (i + 1) _

/-- C2, counterexample: `flatten` does recurse into an array value; the
array is not copied unchanged under its key. -/
theorem C2_counterexample :
    flatten (.vObj [("a", .vArr [.vNum 1, .vNum 2])]) "." =
      .ok [("a.0", .vNum 1), ("a.1", .vNum 2)] ∧
    flatten (.vObj [("a", .vArr [.vNum 1, .vNum 2])]) "." ≠
      .ok [("a", .vArr [.vNum 1, .vNum 2])] := by
  constructor
  · decide
  · decide

/-- C2, amended: `flatten` treats an array value exactly as it treats the
Structure whose keys are the array's decimal indices in ascending order:
arrays are recursed into, not copied as leaves. -/
theorem C2_amended (sep : String) (a : List Value) :
    flattenValue sep (.vArr a) = flattenValue sep (.vObj (arrEntries 0 a)) := by
  simp only [flattenValue]
  exact flattenArr_eq_obj sep 0 a []

/-! ### C10: flatten drops entries that flatten to nothing -/

theorem flattenObjEntries_drop (sep : String) (k : String) (v : Value)
    (hv : isObjectJs v = true) (hempty : flattenValue sep v = [])
    (l1 l2 : List (String × Value)) (acc : List (String × Value)) :
    flattenObjEntries sep (l1 ++ (k, v) :: l2) acc = flattenObjEntries sep (l1 ++ l2) acc := by
  induction l1 generalizing acc with
  | nil =>
    simp only [List.nil_append, flattenObjEntries, hv, if_true, hempty, List.map_nil,
      assignEntries_nil]
  | cons p rest ih =>
    obtain ⟨k2, w⟩ := p
    simp only [List.cons_append, flattenObjEntries]
    by_cases h : isObjectJs w = true
    · simp only [h, if_true]
      exact ih _
    · rw [Bool.not_eq_true] at h
      simp only [h, Bool.false_eq_true, if_false]
      exact ih _

/-- C10: an entry whose object-like value flattens to no entries (an empty
object, or any subtree flattening to nothing) contributes nothing to
`flatten`: the flattened output is the same as if the entry were absent, so
the entry is unrecoverable by `unflatten`. -/
theorem C10_flatten_drops_empty (sep k : String) (v : Value)
    (hv : isObjectJs v = true) (hempty : flattenValue sep v = [])
    (l1 l2 : List (String × Value)) :
    flattenValue sep (.vObj (l1 ++ (k, v) :: l2)) = flattenValue sep (.vObj (l1 ++ l2)) := by
  simp only [flattenValue]
  exact flattenObjEntries_drop sep k v hv hempty l1 l2 []

/-- C10, witness at a concrete input: `{x: 1, k: {}, y: 2}` flattens as if
the empty-object entry were absent. -/
theorem C10_flatten_drops_empty_witness :
    isObjectJs (.vObj []) = true ∧ flattenValue "." (.vObj []) = [] ∧
    flattenValue "." (.vObj [("x", .vNum 1), ("k", .vObj []), ("y", .vNum 2)]) =
      flattenValue "." (.vObj [("x", .vNum 1), ("y", .vNum 2)]) :=
  ⟨by decide, by decide,
    C10_flatten_drops_empty "." "k" (.vObj []) (by decide) (by decide)
      [("x", .vNum 1)] [("y", .vNum 2)]⟩

/-! ### C3: which inputs raise, and which error -/

theorem insertParts_ne_invalid (value : Value) :
    ∀ (parts : List String) (node : Value),
    insertParts value node parts ≠ .error .invalidArgument := by
  intro parts
  induction parts with
  | nil => intro node; simp [insertParts]
  | cons p rest ih =>
    intro node
    cases rest with
    | nil =>
      simp only [insertParts]
      split
      · simp
      · cases node <;> simp
    | cons q rest2 =>
      simp only [insertParts]
      split
      · exact ih node
      · cases node with
        | vObj l =>
          simp only [bind, Except.bind]
          cases h : insertParts value
              (match getKey l p with
                | some w => if truthy w = true then w else Value.vObj []
                | none => Value.vObj []) (q :: rest2) with
          | ok r => simp
          | error e =>
            simp only [Except.bind]
            intro hh
            cases hh
            exact ih _ h
        | vArr a =>
          simp only [bind, Except.bind]
          cases h : insertParts value
              (match arrGet a p with
                | some w => if truthy w = true then w else Value.vObj []
                | none => Value.vObj []) (q :: rest2) with
          | ok r => simp
          | error e =>
            simp only [Except.bind]
            intro hh
            cases hh
            exact ih _ h
        | vStr s => simp
        | vNum n => simp
        | vBool b => simp
        | vNull => simp

theorem insertRoot_ne_invalid (value : Value) :
    ∀ (parts : List String) (l : List (String × Value)),
    insertRoot value l parts ≠ .error .invalidArgument := by
  intro parts
  induction parts with
  | nil => intro l; simp [insertRoot]
  | cons p rest ih =>
    intro l
    cases rest with
    | nil =>
      simp only [insertRoot]
      split <;> simp
    | cons q rest2 =>
      simp only [insertRoot]
      split
      · exact ih l
      · simp only [bind, Except.bind]
        cases h : insertParts value
            (match getKey l p with
              | some w => if truthy w = true then w else Value.vObj []
              | none => Value.vObj []) (q :: rest2) with
        | ok r => simp
        | error e =>
          simp only [Except.bind]
          intro hh
          cases hh
          exact insertParts_ne_invalid value (q :: rest2) _ h

theorem unflattenEntries_ne_invalid (sep : String) :
    ∀ (entries acc : List (String × Value)),
    unflattenEntries sep entries acc ≠ .error .invalidArgument := by
  intro entries
  induction entries with
  | nil => intro acc; simp [unflattenEntries]
  | cons p rest ih =>
    intro acc
    obtain ⟨k, v⟩ := p
    simp only [unflattenEntries, bind, Except.bind]
    cases h : insertRoot v acc (splitJs sep k) with
    | ok r => exact ih r
    | error e =>
      simp only [Except.bind]
      intro hh
      cases hh
      exact insertRoot_ne_invalid v (splitJs sep k) acc h

/-- C3, counterexample: an array as root does not raise for either function
(`_.isObject` accepts arrays), and `unflatten` can raise a TypeError on a
Structure input — both contrary to the claim. -/
theorem C3_counterexample :
    flatten (.vArr [.vNum 1]) "." = .ok [("0", .vNum 1)] ∧
    unflatten (.vArr [.vNum 1]) "." = .ok (.vObj [("0", .vNum 1)]) ∧
    unflatten (.vObj [("a", .vNum 1), ("a.b", .vNum 2)]) "." = .error .typeError := by
  refine ⟨by decide, by decide, by decide⟩

/-- C3, amended: `flatten` and `unflatten` raise `InvalidArgument` exactly
when the input is not object-like — a bare number, string, boolean or null
raises, while an array as root is accepted; `flatten` never fails otherwise,
but `unflatten` can raise a TypeError on some Structure inputs (nesting
through an existing truthy primitive), as the closed conjunct shows. -/
theorem C3_amended (v : Value) (sep : String) :
    (flatten v sep = .error .invalidArgument ↔ isObjectJs v = false) ∧
    (unflatten v sep = .error .invalidArgument ↔ isObjectJs v = false) ∧
    (flatten v sep = .error .invalidArgument ∨ ∃ r, flatten v sep = .ok r) ∧
    unflatten (.vObj [("a", .vNum 1), ("a.b", .vNum 2)]) "." = .error .typeError := by
  refine ⟨?_, ?_, ?_, by decide⟩
  · by_cases h : isObjectJs v = true
    · simp [flatten, h]
    · rw [Bool.not_eq_true] at h
      simp [flatten, h]
  · by_cases h : isObjectJs v = true
    · simp only [unflatten, h, if_true, h, Bool.true_eq_false, iff_false]
      cases hu : unflattenEntries sep (jsEntries v) [] with
      | ok r => simp [Except.map]
      | error e =>
        have := unflattenEntries_ne_invalid sep (jsEntries v) []
        rw [hu] at this
        simp only [Except.map]
        intro hh
        cases hh
        exact this rfl
    · rw [Bool.not_eq_true] at h
      simp [unflatten, h]
  · by_cases h : isObjectJs v = true
    · right
      exact ⟨flattenValue sep v, by simp [flatten, h]⟩
    · rw [Bool.not_eq_true] at h
      left
      simp [flatten, h]

/-! ### C4: colliding intermediate scalars under unflatten -/

/-- C4, counterexample: an intermediate segment holding the (truthy) scalar
5 is not overwritten with a fresh container; the insertion fails with a
TypeError instead. -/
theorem C4_counterexample :
    unflatten (.vObj [("a", .vNum 5), ("a.b", .vNum 1)]) "." = .error .typeError ∧
    unflatten (.vObj [("a", .vNum 5), ("a.b", .vNum 1)]) "." ≠
      .ok (.vObj [("a", .vObj [("b", .vNum 1)])]) := by
  exact ⟨by decide, by decide⟩

/-- C4, amended: when an intermediate path segment holds a primitive
assigned by an earlier key, `unflatten` overwrites it with a fresh Structure
container only when that primitive is falsy (0, empty string, false, null);
a truthy primitive is kept by `currentNode[keyPart] || {}` and the next
assignment into it raises the strict-mode TypeError. -/
theorem C4_amended (w : Value) (hw : isObjectJs w = false) (v : Value) :
    unflatten (.vObj [("a", w), ("a.b", v)]) "." =
      if truthy w then .error .typeError else .ok (.vObj [("a", .vObj [("b", v)])]) := by
  have h1 : splitJs "." "a" = ["a"] := by decide
  have h2 : splitJs "." "a.b" = ["a", "b"] := by decide
  simp only [unflatten, isObjectJs, if_true, jsEntries, unflattenEntries, h1, h2,
    insertRoot, bind, Except.bind]
  cases w with
  | vObj l => simp [isObjectJs] at hw
  | vArr a => simp [isObjectJs] at hw
  | vNull => simp [setKey, getKey, truthy, insertParts, unflattenEntries, Except.map]
  | vBool b =>
    cases b with
    | false => simp [setKey, getKey, truthy, insertParts, unflattenEntries, Except.map]
    | true => simp [setKey, getKey, truthy, insertParts, unflattenEntries, Except.map]
  | vNum n =>
    by_cases hn : n = 0
    · subst hn
      simp [setKey, getKey, truthy, insertParts, unflattenEntries, Except.map]
    · simp [setKey, getKey, truthy, insertParts, unflattenEntries, Except.map, hn]
  | vStr s =>
    by_cases hs : s = ""
    · subst hs
      simp [setKey, getKey, truthy, insertParts, unflattenEntries, Except.map]
    · simp [setKey, getKey, truthy, insertParts, unflattenEntries, Except.map, hs]

/-- C4, amended, witness at the truthy scalar 5 and the falsy scalar 0. -/
theorem C4_amended_witness :
    isObjectJs (.vNum 5) = false ∧ isObjectJs (.vNum 0) = false ∧
    unflatten (.vObj [("a", .vNum 5), ("a.b", .vNum 7)]) "." =
      (if truthy (.vNum 5) then .error .typeError
       else .ok (.vObj [("a", .vObj [("b", .vNum 7)])])) ∧
    unflatten (.vObj [("a", .vNum 0), ("a.b", .vNum 7)]) "." =
      (if truthy (.vNum 0) then .error .typeError
       else .ok (.vObj [("a", .vObj [("b", .vNum 7)])])) :=
  ⟨by decide, by decide, C4_amended (.vNum 5) (by decide) (.vNum 7),
    C4_amended (.vNum 0) (by decide) (.vNum 7)⟩

/-! ### C5: empty segments and the final raw segment -/

/-- The nesting chain `unflatten` builds for one flat key from its raw split
parts: empty parts are skipped; a nonempty part with further raw parts left
becomes a container; the value is assigned only when the final raw part
itself is nonempty. -/
def chainOf (v : Value) : List String → List (String × Value)
  | [] => []
  | [p] => if p == "" then [] else [(p, v)]
  | p :: rest => if p == "" then chainOf v rest else [(p, .vObj (chainOf v rest))]

theorem insertParts_empty_obj (value : Value) :
    ∀ parts, insertParts value (.vObj []) parts = .ok (.vObj (chainOf value parts)) := by
  intro parts
  induction parts with
  | nil => simp [insertParts, chainOf]
  | cons p rest ih =>
    cases rest with
    | nil =>
      simp only [insertParts, chainOf]
      split <;> simp [setKey]
    | cons q rest2 =>
      simp only [insertParts, chainOf, getKey]
      split
      · exact ih
      · simp only [bind, Except.bind, ih, setKey]

theorem insertRoot_empty (value : Value) :
    ∀ parts, insertRoot value [] parts = .ok (chainOf value parts) := by
  intro parts
  induction parts with
  | nil => simp [insertRoot, chainOf]
  | cons p rest ih =>
    cases rest with
    | nil =>
      simp only [insertRoot, chainOf]
      split <;> simp [setKey]
    | cons q rest2 =>
      simp only [insertRoot, chainOf, getKey]
      split
      · exact ih
      · simp only [bind, Except.bind, insertParts_empty_obj, setKey]

/-- C5, counterexample: a key with a trailing separator does not assign its
value at the path of its nonempty segments; the value is dropped and only an
empty container is created. -/
theorem C5_counterexample :
    unflatten (.vObj [("a.", .vNum 5)]) "." = .ok (.vObj [("a", .vObj [])]) ∧
    unflatten (.vObj [("a.", .vNum 5)]) "." ≠ .ok (.vObj [("a", .vNum 5)]) := by
  exact ⟨by decide, by decide⟩

/-- C5, amended: for a single flat key, `unflatten` skips empty raw
segments, turns every other nonempty segment before the end into a nested
container, and assigns the value only when the final raw segment is
nonempty — a key ending in the separator creates its containers but drops
the value (`chainOf` is exactly that rule). -/
theorem C5_amended (sep k : String) (v : Value) :
    unflatten (.vObj [(k, v)]) sep = .ok (.vObj (chainOf v (splitJs sep k))) := by
  simp only [unflatten, isObjectJs, if_true, jsEntries, unflattenEntries, bind, Except.bind,
    insertRoot_empty, Except.map]

/-! ### C6: which existing values make a path unassignable -/

/-- The path-array computation of `isAssignable`: a string path is split by
the separator, an array path is used as given. -/
def pathArrayOf (path : String ⊕ List String) (sep : String) : List String :=
  match path with
  | .inl s => splitJs sep s
  | .inr segs => segs

/-- A cumulative point collides when it resolves to an existing value whose
`typeof` is not `'object'`: strings, numbers and booleans collide, while
Structures, arrays and null pass the test. -/
def collidesAt (object : Value) (pt : String) : Bool :=
  match getPath object (splitJs "." pt) with
  | some w => !typeofObject w
  | none => false

theorem firstBadPoint_eq_find (object : Value) :
    ∀ pts : List String, firstBadPoint object pts = pts.find? (collidesAt object) := by
  intro pts
  induction pts with
  | nil => simp [firstBadPoint, List.find?]
  | cons pt rest ih =>
    simp only [firstBadPoint, List.find?, collidesAt]
    cases h : getPath object (splitJs "." pt) with
    | some w =>
      cases hw : typeofObject w with
      | true => simpa [hw] using ih
      | false => simp [hw]
    | none => simpa using ih

/-- C6, counterexample: a null value and an array value at a cumulative
prefix do not collide (`typeof` is `'object'` for both), so the prefix is
not returned. -/
theorem C6_counterexample :
    isAssignable (.vObj [("a", .vNull)]) (.inl "a.b") "." = .inr true ∧
    isAssignable (.vObj [("a", .vNull)]) (.inl "a.b") "." ≠ .inl "a" ∧
    isAssignable (.vObj [("a", .vArr [.vNum 1])]) (.inl "a.b") "." = .inr true := by
  exact ⟨by decide, by decide, by decide⟩

/-- C6, amended: `isAssignable` returns the first — hence shortest —
cumulative prefix whose existing value has `typeof` other than `'object'`
(a string, number or boolean; null and arrays count as objects and never
collide), and the boolean true exactly when no cumulative prefix collides. -/
theorem C6_amended (object : Value) (path : String ⊕ List String) (sep : String) :
    isAssignable object path sep =
      (match (pathPoints (pathArrayOf path sep)).find? (collidesAt object) with
        | some pt => .inl pt
        | none => .inr true) ∧
    (isAssignable object path sep = .inr true ↔
      ∀ pt ∈ pathPoints (pathArrayOf path sep), collidesAt object pt = false) := by
  have hmain : isAssignable object path sep =
      match (pathPoints (pathArrayOf path sep)).find? (collidesAt object) with
      | some pt => .inl pt
      | none => .inr true := by
    simp only [isAssignable, firstBadPoint_eq_find, pathArrayOf]
  refine ⟨hmain, ?_⟩
  rw [hmain]
  cases hf : (pathPoints (pathArrayOf path sep)).find? (collidesAt object) with
  | some pt =>
    simp only [reduceCtorEq, false_iff]
    intro hall
    have hmem := List.mem_of_find?_eq_some hf
    have hcol := List.find?_some hf
    rw [hall pt hmem] at hcol
    cases hcol
  | none =>
    simp only [true_iff]
    intro pt hpt
    simpa using List.find?_eq_none.mp hf pt hpt

/-! ### C7: clear with skipFirstDepth -/

theorem memKey_of_mem (p : String × Value) (l : List (String × Value)) (h : p ∈ l) :
    memKey p.1 l = true := by
  induction l with
  | nil => simp at h
  | cons q rest ih =>
    obtain ⟨k2, w⟩ := q
    rcases List.mem_cons.mp h with hh | hh
    · subst hh
      simp [memKey]
    · simp [memKey, ih hh]

theorem memKey_filter_of_false (k : String) (l : List (String × Value))
    (P : String × Value → Bool) (h : memKey k l = false) : memKey k (l.filter P) = false := by
  induction l with
  | nil => simp [memKey]
  | cons q rest ih =>
    obtain ⟨k2, w⟩ := q
    simp only [memKey, Bool.or_eq_false_iff] at h
    rw [List.filter_cons]
    split
    · simp [memKey, h.1, ih h.2]
    · exact ih h.2

theorem nodupKeysB_filter (l : List (String × Value)) (P : String × Value → Bool)
    (h : nodupKeysB l = true) : nodupKeysB (l.filter P) = true := by
  induction l with
  | nil => simp [nodupKeysB]
  | cons q rest ih =>
    obtain ⟨k2, w⟩ := q
    simp only [nodupKeysB, Bool.and_eq_true, Bool.not_eq_true'] at h
    rw [List.filter_cons]
    split
    · simp only [nodupKeysB, Bool.and_eq_true, Bool.not_eq_true']
      exact ⟨memKey_filter_of_false _ _ _ h.1, ih h.2⟩
    · exact ih h.2

theorem memKey_filter_not (l : List (String × Value)) (P : String × Value → Bool)
    (h : nodupKeysB l = true) :
    ∀ p ∈ l.filter (fun q => !P q), memKey p.1 (l.filter P) = false := by
  induction l with
  | nil => simp
  | cons q rest ih =>
    obtain ⟨k2, w⟩ := q
    simp only [nodupKeysB, Bool.and_eq_true, Bool.not_eq_true'] at h
    intro p hp
    rw [List.filter_cons] at hp
    rw [List.filter_cons]
    by_cases hq : P (k2, w) = true
    · simp only [hq, Bool.not_true, Bool.false_eq_true, if_false] at hp
      simp only [hq, if_true]
      have hmem : p ∈ rest := List.mem_of_mem_filter hp
      have hne : (p.1 == k2) = false := by
        rw [beq_eq_false_iff_ne]
        intro hh
        have := memKey_of_mem p rest hmem
        rw [hh] at this
        rw [this] at h
        exact absurd h.1 (by simp)
      simp [memKey, hne, ih h.2 p hp]
    · rw [Bool.not_eq_true] at hq
      simp only [hq, Bool.not_false, if_true] at hp
      simp only [hq, Bool.false_eq_true, if_false]
      rcases List.mem_cons.mp hp with hh | hh
      · subst hh
        exact memKey_filter_of_false _ _ _ h.1
      · exact ih h.2 p hh

theorem memKey_map_fst (k : String) (x : List (String × Value)) (f : String × Value → Value) :
    memKey k (x.map fun p => (p.1, f p)) = memKey k x := by
  induction x with
  | nil => simp [memKey]
  | cons q rest ih =>
    obtain ⟨k2, w⟩ := q
    simp [memKey, ih]

theorem nodupKeysB_map_fst (x : List (String × Value)) (f : String × Value → Value)
    (h : nodupKeysB x = true) : nodupKeysB (x.map fun p => (p.1, f p)) = true := by
  induction x with
  | nil => simp [nodupKeysB]
  | cons q rest ih =>
    obtain ⟨k2, w⟩ := q
    simp only [nodupKeysB, Bool.and_eq_true, Bool.not_eq_true'] at h ⊢
    refine ⟨?_, ih h.2⟩
    rw [memKey_map_fst]
    exact h.1

theorem clearObjsS_eq (l : List (String × Value)) :
    clearObjsS l =
      (l.filter fun p => isObjectJs p.2).map fun p => (p.1, Value.vObj (clearDefault p.2)) := by
  induction l with
  | nil => simp [clearObjsS]
  | cons q rest ih =>
    obtain ⟨k, v⟩ := q
    rw [List.filter_cons]
    by_cases h : isObjectJs v = true
    · simp only [clearObjsS, h, if_true, List.map_cons, ih]
    · rw [Bool.not_eq_true] at h
      simp only [clearObjsS, h, Bool.false_eq_true, if_false, ih]

theorem isObjectJs_vObj (l : List (String × Value)) : isObjectJs (.vObj l) = true := rfl

theorem map_resetNonObj_clearObjsS (l : List (String × Value)) :
    (clearObjsS l).map (fun p => (p.1, if isObjectJs p.2 then p.2 else Value.vObj [])) =
      clearObjsS l := by
  induction l with
  | nil => simp [clearObjsS]
  | cons q rest ih =>
    obtain ⟨k, v⟩ := q
    by_cases h : isObjectJs v = true
    · simp [clearObjsS, h, ih, isObjectJs_vObj]
    · rw [Bool.not_eq_true] at h
      simp [clearObjsS, h, ih]

theorem map_resetNonObj_nonObj (l : List (String × Value)) :
    (nonObjEntries l).map (fun p => (p.1, if isObjectJs p.2 then p.2 else Value.vObj [])) =
      (nonObjEntries l).map fun p => (p.1, Value.vObj []) := by
  simp only [nonObjEntries]
  induction l with
  | nil => simp
  | cons q rest ih =>
    obtain ⟨k, v⟩ := q
    rw [List.filter_cons]
    by_cases h : isObjectJs v = true
    · simp [h, ih]
    · rw [Bool.not_eq_true] at h
      simp [h, ih]

theorem nonObjEntries_eq (l : List (String × Value)) :
    nonObjEntries l = l.filter fun p => !isObjectJs p.2 := rfl

/-- C7, counterexample: with `skipFirstDepth = true` a top-level array — not
a Structure — is not replaced by an empty Structure; it is recursively
cleared like an object and becomes its index-keyed Structure. -/
theorem C7_counterexample :
    clear (.vObj [("a", .vArr [.vNum 1])]) true = .vObj [("a", .vObj [("0", .vNum 1)])] ∧
    clear (.vObj [("a", .vArr [.vNum 1])]) true ≠ .vObj [("a", .vObj [])] := by
  exact ⟨by decide, by decide⟩

/-- Closed form of `clear` in skip mode: the recursively cleared object-like
entries in order, then the primitive-valued keys reset to empty objects. -/
theorem clearSkip_eq (l : List (String × Value)) (h : nodupKeysB l = true) :
    clearSkip (.vObj l) =
      ((l.filter fun p => isObjectJs p.2).map fun p => (p.1, Value.vObj (clearDefault p.2))) ++
        ((l.filter fun p => !isObjectJs p.2).map fun p => (p.1, Value.vObj [])) := by
  have hfresh : ∀ p ∈ nonObjEntries l, memKey p.1 (clearObjsS l) = false := by
    intro p hp
    rw [clearObjsS_eq, memKey_map_fst]
    exact memKey_filter_not l (fun p => isObjectJs p.2) h p hp
  have hnodup : nodupKeysB (nonObjEntries l) = true := by
    rw [nonObjEntries_eq]
    exact nodupKeysB_filter l _ h
  simp only [clearSkip]
  rw [assignEntries_eq_append _ _ hfresh hnodup, List.map_append,
    map_resetNonObj_clearObjsS, map_resetNonObj_nonObj, clearObjsS_eq, nonObjEntries_eq]

/-- C7, amended: with `skipFirstDepth = true`, `clear` keeps every top-level
key: the object-like values (Structures and arrays) come first, each
recursively cleared by the default rule and kept even if empty, followed by
the keys whose value is a primitive, each replaced by an empty Structure;
the claim's own example is unchanged. -/
theorem C7_amended (l : List (String × Value)) (h : nodupKeysB l = true) :
    clear (.vObj l) true =
      .vObj
        (((l.filter fun p => isObjectJs p.2).map fun p =>
            (p.1, Value.vObj (clearDefault p.2))) ++
          ((l.filter fun p => !isObjectJs p.2).map fun p => (p.1, Value.vObj []))) ∧
    clear (.vObj [("a", .vObj []), ("b", .vNum 1)]) true =
      .vObj [("a", .vObj []), ("b", .vObj [])] := by
  refine ⟨?_, by decide⟩
  simp only [clear, if_true, clearSkip_eq l h]

/-- C7, amended, witness at a concrete input with an array and an empty
Structure at the top level. -/
theorem C7_amended_witness :
    nodupKeysB [("a", Value.vObj []), ("b", .vNum 1), ("c", .vArr [.vNum 2])] = true ∧
    clear (.vObj [("a", Value.vObj []), ("b", .vNum 1), ("c", .vArr [.vNum 2])]) true =
      .vObj
        (((([("a", Value.vObj []), ("b", .vNum 1), ("c", .vArr [.vNum 2])].filter
              fun p => isObjectJs p.2).map fun p => (p.1, Value.vObj (clearDefault p.2))) ++
          (([("a", Value.vObj []), ("b", .vNum 1), ("c", .vArr [.vNum 2])].filter
              fun p => !isObjectJs p.2).map fun p => (p.1, Value.vObj [])))) ∧
    clear (.vObj [("a", .vObj []), ("b", .vNum 1)]) true =
      .vObj [("a", .vObj []), ("b", .vObj [])] :=
  ⟨by decide,
    (C7_amended [("a", .vObj []), ("b", .vNum 1), ("c", .vArr [.vNum 2])] (by decide)).1,
    (C7_amended [("a", .vObj []), ("b", .vNum 1), ("c", .vArr [.vNum 2])] (by decide)).2⟩

/-! ### C8: sort -/

theorem ltChars_asymm : ∀ a b : List Char, ltChars a b = true → ltChars b a = false := by
  intro a
  induction a with
  | nil =>
    intro b h
    cases b with
    | nil => simp [ltChars] at h
    | cons y ys => simp [ltChars]
  | cons x xs ih =>
    intro b h
    cases b with
    | nil => simp [ltChars] at h
    | cons y ys =>
      simp only [ltChars] at h ⊢
      by_cases hxy : x < y
      · rw [if_neg (lt_asymm hxy), if_pos hxy]
      · by_cases hyx : y < x
        · rw [if_neg hxy, if_pos hyx] at h
          cases h
        · rw [if_neg hxy, if_neg hyx] at h
          rw [if_neg hyx, if_neg hxy]
          exact ih ys h

theorem ltChars_trans : ∀ a b c : List Char,
    ltChars a b = true → ltChars b c = true → ltChars a c = true := by
  intro a
  induction a with
  | nil =>
    intro b c hab hbc
    cases c with
    | nil =>
      cases b with
      | nil => simp [ltChars] at hab
      | cons y ys => simp [ltChars] at hbc
    | cons z zs => simp [ltChars]
  | cons x xs ih =>
    intro b c hab hbc
    cases b with
    | nil => simp [ltChars] at hab
    | cons y ys =>
      cases c with
      | nil => simp [ltChars] at hbc
      | cons z zs =>
        simp only [ltChars] at hab hbc ⊢
        by_cases hxy : x < y
        · by_cases hyz : y < z
          · rw [if_pos (lt_trans hxy hyz)]
          · by_cases hzy : z < y
            · rw [if_pos hxy] at hab
              rw [if_neg hyz, if_pos hzy] at hbc
              cases hbc
            · have hyzeq : y = z := le_antisymm (le_of_not_lt hzy) (le_of_not_lt hyz)
              subst hyzeq
              rw [if_pos hxy]
        · by_cases hyx : y < x
          · rw [if_neg hxy, if_pos hyx] at hab
            cases hab
          · have hxyeq : x = y := le_antisymm (le_of_not_lt hyx) (le_of_not_lt hxy)
            subst hxyeq
            rw [if_neg hxy, if_neg hyx] at hab
            by_cases hyz : x < z
            · rw [if_pos hyz]
            · by_cases hzy : z < x
              · rw [if_neg hyz, if_pos hzy] at hbc
                cases hbc
              · rw [if_neg hyz, if_neg hzy] at hbc ⊢
                exact ih ys zs hab hbc

theorem ltStr_asymm (a b : String) (h : ltStr a b = true) : ltStr b a = false :=
  ltChars_asymm a.data b.data h

theorem ltStr_trans (a b c : String) (hab : ltStr a b = true) (hbc : ltStr b c = true) :
    ltStr a c = true :=
  ltChars_trans a.data b.data c.data hab hbc

theorem mem_insertPair (p x : String × Value) :
    ∀ acc, x ∈ insertPair p acc → x = p ∨ x ∈ acc := by
  intro acc
  induction acc with
  | nil =>
    intro h
    simp only [insertPair, List.mem_singleton] at h
    exact Or.inl h
  | cons q rest ih =>
    intro h
    simp only [insertPair] at h
    split at h
    · rcases List.mem_cons.mp h with hh | hh
      · exact Or.inl hh
      · exact Or.inr hh
    · rcases List.mem_cons.mp h with hh | hh
      · exact Or.inr (by simp [hh])
      · rcases ih hh with hh2 | hh2
        · exact Or.inl hh2
        · exact Or.inr (by simp [hh2])

theorem insertPair_perm (p : String × Value) :
    ∀ acc, List.Perm (insertPair p acc) (p :: acc) := by
  intro acc
  induction acc with
  | nil => simp [insertPair]
  | cons q rest ih =>
    simp only [insertPair]
    split
    · exact List.Perm.refl _
    · exact List.Perm.trans (List.Perm.cons q ih) (List.Perm.swap p q rest)

theorem insertPair_sorted (p : String × Value) (acc : List (String × Value))
    (h : List.Pairwise (fun a b => ltStr b.1 a.1 = false) acc) :
    List.Pairwise (fun a b => ltStr b.1 a.1 = false) (insertPair p acc) := by
  induction acc with
  | nil => simp [insertPair]
  | cons q rest ih =>
    rcases List.pairwise_cons.mp h with ⟨hq, hrest⟩
    simp only [insertPair]
    split
    · rename_i hlt
      refine List.Pairwise.cons ?_ h
      intro x hx
      rcases List.mem_cons.mp hx with hh | hh
      · subst hh
        exact ltStr_asymm _ _ hlt
      · by_contra hcon
        rw [Bool.not_eq_false] at hcon
        have h2 := hq x hh
        have := ltStr_trans x.1 p.1 q.1 hcon hlt
        rw [this] at h2
        cases h2
    · rename_i hnlt
      rw [Bool.not_eq_true] at hnlt
      refine List.Pairwise.cons ?_ (ih hrest)
      intro x hx
      rcases mem_insertPair p x rest hx with hh | hh
      · subst hh
        exact hnlt
      · exact hq x hh

theorem foldl_insertPair_perm (l : List (String × Value)) :
    ∀ acc, List.Perm (l.foldl (fun acc p => insertPair p acc) acc) (acc ++ l) := by
  induction l with
  | nil => intro acc; simp
  | cons p rest ih =>
    intro acc
    simp only [List.foldl_cons]
    refine List.Perm.trans (ih (insertPair p acc)) ?_
    refine List.Perm.trans (List.Perm.append_right rest (insertPair_perm p acc)) ?_
    exact List.perm_middle.symm

theorem sortPairs_perm (l : List (String × Value)) : List.Perm (sortPairs l) l := by
  simpa using foldl_insertPair_perm l []

theorem foldl_insertPair_sorted (l : List (String × Value)) :
    ∀ acc, List.Pairwise (fun a b => ltStr b.1 a.1 = false) acc →
    List.Pairwise (fun a b => ltStr b.1 a.1 = false)
      (l.foldl (fun acc p => insertPair p acc) acc) := by
  induction l with
  | nil => intro acc h; simpa using h
  | cons p rest ih =>
    intro acc h
    simp only [List.foldl_cons]
    exact ih _ (insertPair_sorted p acc h)

theorem sortPairs_sorted (l : List (String × Value)) :
    List.Pairwise (fun a b => ltStr b.1 a.1 = false) (sortPairs l) :=
  foldl_insertPair_sorted l [] (by simp)

theorem memKey_iff_mem (k : String) : ∀ l : List (String × Value),
    memKey k l = true ↔ k ∈ keys l := by
  intro l
  induction l with
  | nil => simp [memKey, keys]
  | cons q rest ih =>
    obtain ⟨k2, w⟩ := q
    simp [memKey, keys, ih, beq_iff_eq]

theorem nodupKeysB_iff (l : List (String × Value)) :
    nodupKeysB l = true ↔ (keys l).Nodup := by
  induction l with
  | nil => simp [nodupKeysB, keys]
  | cons q rest ih =>
    obtain ⟨k2, w⟩ := q
    have hk : keys ((k2, w) :: rest) = k2 :: keys rest := rfl
    rw [hk, List.nodup_cons, ← ih]
    simp only [nodupKeysB, Bool.and_eq_true, Bool.not_eq_true']
    constructor
    · rintro ⟨h1, h2⟩
      refine ⟨fun hh => ?_, h2⟩
      rw [← memKey_iff_mem k2 rest] at hh
      rw [hh] at h1
      cases h1
    · rintro ⟨h1, h2⟩
      refine ⟨?_, h2⟩
      rw [Bool.eq_false_iff]
      intro hh
      exact h1 ((memKey_iff_mem k2 rest).mp hh)

theorem assignEntries_id (x : List (String × Value)) (hx : nodupKeysB x = true) :
    assignEntries [] x = x := by
  have := assignEntries_eq_append [] x (by intro p _; simp [memKey]) hx
  simpa using this

theorem keys_sortEntriesRec (l : List (String × Value)) :
    keys (sortEntriesRec l) = keys l := by
  induction l with
  | nil => simp [sortEntriesRec]
  | cons q rest ih =>
    obtain ⟨k, v⟩ := q
    simp [sortEntriesRec, keys] at ih ⊢
    exact ih

theorem nodupKeysB_perm (x y : List (String × Value)) (hp : List.Perm x y) :
    nodupKeysB x = nodupKeysB y := by
  have hk : List.Perm (keys x) (keys y) := hp.map Prod.fst
  by_cases hx : nodupKeysB x = true
  · rw [hx]
    symm
    rw [nodupKeysB_iff]
    exact hk.nodup_iff.mp ((nodupKeysB_iff x).mp hx)
  · rw [Bool.not_eq_true] at hx
    rw [hx]
    symm
    rw [Bool.eq_false_iff]
    intro hy
    rw [Bool.eq_false_iff] at hx
    exact hx ((nodupKeysB_iff x).mpr (hk.nodup_iff.mpr ((nodupKeysB_iff y).mp hy)))

mutual

/-- No array anywhere in a value. -/
def noArr : Value → Bool
  | .vObj l => noArrEntries l
  | .vArr _ => false
  | _ => true

/-- No array anywhere below a list of entries. -/
def noArrEntries : List (String × Value) → Bool
  | [] => true
  | (_, v) :: rest => noArr v && noArrEntries rest

end

mutual

/-- Well-formedness of a value as a JavaScript runtime object: the keys of
every object are pairwise distinct, as the language guarantees. -/
def wfValue : Value → Bool
  | .vObj l => nodupKeysB l && wfEntries l
  | .vArr a => wfElems a
  | _ => true

/-- Well-formedness of each value of an entry list. -/
def wfEntries : List (String × Value) → Bool
  | [] => true
  | (_, v) :: rest => wfValue v && wfEntries rest

/-- Well-formedness of each element of an array. -/
def wfElems : List Value → Bool
  | [] => true
  | v :: rest => wfValue v && wfElems rest

end

mutual

/-- `SortRel s x` states that `s` is an alphabetically sorted version of
`x`: a non-object value is left unmodified, and an object's entry list is a
permutation of the original entries with each value sorted in turn, its keys
in nondecreasing alphabetical order. -/
inductive SortRel : Value → Value → Prop where
  | scalar : ∀ v, isObjectJs v = false → SortRel v v
  | obj : ∀ (l m l2 : List (String × Value)),
      List.Perm m l2 →
      SortRelEntries l2 l →
      List.Pairwise (fun a b => ltStr b.1 a.1 = false) m →
      SortRel (.vObj m) (.vObj l)

/-- Pointwise relation between two entry lists: the same keys in the same
order, each value of the first a sorted version of the corresponding value
of the second. -/
inductive SortRelEntries : List (String × Value) → List (String × Value) → Prop where
  | nil : SortRelEntries [] []
  | cons : ∀ (k : String) (v w : Value) (l2 l : List (String × Value)),
      SortRel v w → SortRelEntries l2 l →
      SortRelEntries ((k, v) :: l2) ((k, w) :: l)

end

/-- Packaging of the `sort` pipeline for one object level: given the
recursive relation on the mapped entries and distinct keys, the pipeline
output is a sorted version of the object. -/
theorem sortRel_obj_of_forall2 (l : List (String × Value))
    (hf : SortRelEntries (sortEntriesRec l) l)
    (hn : nodupKeysB l = true) : SortRel (sortValue (.vObj l)) (.vObj l) := by
  have hkeys : nodupKeysB (sortEntriesRec l) = true := by
    rw [nodupKeysB_iff, keys_sortEntriesRec, ← nodupKeysB_iff]
    exact hn
  have hperm : List.Perm (sortPairs (sortEntriesRec l)) (sortEntriesRec l) :=
    sortPairs_perm (sortEntriesRec l)
  have hnodup2 : nodupKeysB (sortPairs (sortEntriesRec l)) = true := by
    rw [nodupKeysB_perm _ _ hperm]
    exact hkeys
  have hid : assignEntries [] (sortPairs (sortEntriesRec l)) = sortPairs (sortEntriesRec l) :=
    assignEntries_id _ hnodup2
  have : sortValue (.vObj l) = .vObj (sortPairs (sortEntriesRec l)) := by
    simp only [sortValue, hid]
  rw [this]
  exact SortRel.obj l (sortPairs (sortEntriesRec l)) (sortEntriesRec l) hperm hf
    (sortPairs_sorted (sortEntriesRec l))

theorem sortRel_entries_aux : ∀ (n : Nat) (l : List (String × Value)), sizeOf l ≤ n →
    noArrEntries l = true → wfEntries l = true →
    SortRelEntries (sortEntriesRec l) l := by
  intro n
  induction n with
  | zero =>
    intro l hl
    exact absurd hl (by cases l <;> simp)
  | succ n ih =>
    intro l hl hn hw
    cases l with
    | nil => exact SortRelEntries.nil
    | cons q rest =>
      obtain ⟨k, v⟩ := q
      simp only [noArrEntries, Bool.and_eq_true] at hn
      simp only [wfEntries, Bool.and_eq_true] at hw
      have hrest : sizeOf rest ≤ n := by
        have h1 := List.cons.sizeOf_spec (k, v) rest
        have h2 := Prod.mk.sizeOf_spec k v
        omega
      simp only [sortEntriesRec]
      refine SortRelEntries.cons k _ v (sortEntriesRec rest) rest ?_ (ih rest hrest hn.2 hw.2)
      by_cases ho : isObjectJs v = true
      · cases v with
        | vObj m =>
          simp only [ho, if_true]
          simp only [wfValue, Bool.and_eq_true] at hw
          simp only [noArr] at hn
          have hm : sizeOf m ≤ n := by
            have h1 := List.cons.sizeOf_spec (k, Value.vObj m) rest
            have h2 := Prod.mk.sizeOf_spec k (Value.vObj m)
            have h3 : sizeOf (Value.vObj m) = 1 + sizeOf m := by simp
            omega
          exact sortRel_obj_of_forall2 m (ih m hm hn.1 hw.1.2) hw.1.1
        | vArr a => simp [noArr] at hn
        | vStr s => simp [isObjectJs] at ho
        | vNum i => simp [isObjectJs] at ho
        | vBool b => simp [isObjectJs] at ho
        | vNull => simp [isObjectJs] at ho
      · rw [Bool.not_eq_true] at ho
        simp only [ho, Bool.false_eq_true, if_false]
        exact SortRel.scalar v ho

/-- C8, counterexample: `sort` recurses into an array value (`_.isObject`
accepts arrays) and `fromPairs` rebuilds it as a plain object, so the
key-value pair `(a, [1, 2])` of the input is not preserved. -/
theorem C8_counterexample :
    sortValue (.vObj [("a", .vArr [.vNum 1, .vNum 2])]) =
      .vObj [("a", .vObj [("0", .vNum 1), ("1", .vNum 2)])] ∧
    sortValue (.vObj [("a", .vArr [.vNum 1, .vNum 2])]) ≠
      .vObj [("a", .vArr [.vNum 1, .vNum 2])] := by
  exact ⟨by decide, by decide⟩

/-- C8, amended: for every array-free Structure X (with the distinct keys
JavaScript guarantees), sort(X) contains exactly the same key-value pairs as
X at every depth, with keys at every depth reordered alphabetically and
non-object values left unmodified; an array value, however, is recursed into
like a Structure and rebuilt as an index-keyed object. -/
theorem C8_amended (l : List (String × Value)) (hn : noArr (.vObj l) = true)
    (hw : wfValue (.vObj l) = true) : SortRel (sortValue (.vObj l)) (.vObj l) := by
  simp only [noArr] at hn
  simp only [wfValue, Bool.and_eq_true] at hw
  exact sortRel_obj_of_forall2 l (sortRel_entries_aux (sizeOf l) l (le_refl _) hn hw.2) hw.1

/-- C8, amended, witness: the specification's own example is a sorted
version of its input. -/
theorem C8_amended_witness :
    noArr (.vObj [("b", .vNum 1), ("a", .vObj [("d", .vNum 1), ("c", .vNum 2)])]) = true ∧
    wfValue (.vObj [("b", .vNum 1), ("a", .vObj [("d", .vNum 1), ("c", .vNum 2)])]) = true ∧
    SortRel (sortValue (.vObj [("b", .vNum 1), ("a", .vObj [("d", .vNum 1), ("c", .vNum 2)])]))
      (.vObj [("b", .vNum 1), ("a", .vObj [("d", .vNum 1), ("c", .vNum 2)])]) :=
  ⟨by decide, by decide,
    C8_amended [("b", .vNum 1), ("a", .vObj [("d", .vNum 1), ("c", .vNum 2)])]
      (by decide) (by decide)⟩

/-! ### Decimal rendering of array indices is injective -/

theorem digitChar_parse : ∀ d : Nat, d < 10 →
    (Nat.digitChar d).isDigit = true ∧ (Nat.digitChar d).toNat - 48 = d := by decide

theorem decNatAux_digit (a d : Nat) (hd : d < 10) (rest : List Char) :
    decNatAux a (Nat.digitChar d :: rest) = decNatAux (a * 10 + d) rest := by
  obtain ⟨h1, h2⟩ := digitChar_parse d hd
  simp [decNatAux, h1, h2]

theorem decNatAux_toDigitsCore : ∀ (f n a : Nat) (acc : List Char), n < f →
    ∃ k, decNatAux a (Nat.toDigitsCore 10 f n acc) = decNatAux (a * 10 ^ k + n) acc ∧
      n < 10 ^ k := by
  intro f
  induction f with
  | zero => intro n a acc h; omega
  | succ f ih =>
    intro n a acc h
    simp only [Nat.toDigitsCore]
    by_cases hz : n / 10 = 0
    · rw [if_pos hz]
      refine ⟨1, ?_, by omega⟩
      rw [decNatAux_digit a (n % 10) (by omega) acc]
      have he : a * 10 + n % 10 = a * 10 ^ 1 + n := by
        have := Nat.mod_add_div n 10
        simp only [pow_one]
        omega
      rw [he]
    · rw [if_neg hz]
      rcases ih (n / 10) a (Nat.digitChar (n % 10) :: acc) (by omega) with ⟨k, hk, hbound⟩
      refine ⟨k + 1, ?_, ?_⟩
      · rw [hk, decNatAux_digit _ (n % 10) (by omega) acc]
        have he : (a * 10 ^ k + n / 10) * 10 + n % 10 = a * 10 ^ (k + 1) + n := by
          have h2 := Nat.mod_add_div n 10
          rw [pow_succ]
          ring_nf
          ring_nf at h2
          omega
        rw [he]
      · rw [pow_succ]
        have h2 := Nat.mod_add_div n 10
        have h3 : n % 10 < 10 := Nat.mod_lt n (by omega)
        nlinarith

theorem parse_repr (n : Nat) : decNatAux 0 (Nat.repr n).data = some n := by
  rcases decNatAux_toDigitsCore (n + 1) n 0 [] (by omega) with ⟨k, hk, _⟩
  have hd : (Nat.repr n).data = Nat.toDigitsCore 10 (n + 1) n [] := rfl
  rw [hd, hk]
  simp [decNatAux]

theorem toString_nat_inj (m n : Nat) (h : toString m = toString n) : m = n := by
  have hm := parse_repr m
  have hn := parse_repr n
  have hr : Nat.repr m = Nat.repr n := h
  rw [hr, hn] at hm
  exact (Option.some.inj hm).symm

theorem arrEntries_key_mem : ∀ (a : List Value) (i : Nat) (p : String × Value),
    p ∈ arrEntries i a → ∃ t, t < a.length ∧ p.1 = toString (i + t) := by
  intro a
  induction a with
  | nil => intro i p hp; simp [arrEntries] at hp
  | cons v rest ih =>
    intro i p hp
    simp only [arrEntries] at hp
    rcases List.mem_cons.mp hp with hh | hh
    · exact ⟨0, by simp, by simp [hh]⟩
    · rcases ih (i + 1) p hh with ⟨t, ht, hk⟩
      exact ⟨t + 1, by simpa using ht, by rw [hk]; congr 1; omega⟩

theorem arrEntries_value_mem : ∀ (a : List Value) (i : Nat) (p : String × Value),
    p ∈ arrEntries i a → p.2 ∈ a := by
  intro a
  induction a with
  | nil => intro i p hp; simp [arrEntries] at hp
  | cons v rest ih =>
    intro i p hp
    simp only [arrEntries] at hp
    rcases List.mem_cons.mp hp with hh | hh
    · simp [hh]
    · simp [ih (i + 1) p hh]

theorem nodupKeysB_arrEntries : ∀ (a : List Value) (i : Nat),
    nodupKeysB (arrEntries i a) = true := by
  intro a
  induction a with
  | nil => intro i; simp [arrEntries, nodupKeysB]
  | cons v rest ih =>
    intro i
    simp only [arrEntries, nodupKeysB, Bool.and_eq_true, Bool.not_eq_true']
    refine ⟨?_, ih (i + 1)⟩
    rw [Bool.eq_false_iff]
    intro hmem
    rw [memKey_iff_mem] at hmem
    rcases List.mem_map.mp hmem with ⟨p, hp, hk⟩
    rcases arrEntries_key_mem rest (i + 1) p hp with ⟨t, _, hk2⟩
    rw [hk2] at hk
    have := toString_nat_inj _ _ hk
    omega

/-! ### C9: clear is idempotent -/

theorem clearObjsD_eq (l : List (String × Value)) :
    clearObjsD l =
      (l.filter fun p => isObjectJs p.2 && !(clearDefault p.2).isEmpty).map
        fun p => (p.1, Value.vObj (clearDefault p.2)) := by
  induction l with
  | nil => simp [clearObjsD]
  | cons q rest ih =>
    obtain ⟨k, v⟩ := q
    rw [List.filter_cons]
    by_cases h : isObjectJs v = true
    · by_cases he : (clearDefault v).isEmpty = true
      · simp [clearObjsD, h, he, ih]
      · simp only [Bool.not_eq_true] at he
        simp [clearObjsD, h, he, ih]
    · rw [Bool.not_eq_true] at h
      simp [clearObjsD, h, ih]

theorem clearObjsD_append (x y : List (String × Value)) :
    clearObjsD (x ++ y) = clearObjsD x ++ clearObjsD y := by
  induction x with
  | nil => simp [clearObjsD]
  | cons q rest ih =>
    obtain ⟨k, v⟩ := q
    by_cases h : isObjectJs v = true
    · simp [clearObjsD, h, ih, List.append_assoc]
    · rw [Bool.not_eq_true] at h
      simp [clearObjsD, h, ih]

theorem clearObjsD_of_nonObj (x : List (String × Value))
    (h : ∀ p ∈ x, isObjectJs p.2 = false) : clearObjsD x = [] := by
  induction x with
  | nil => simp [clearObjsD]
  | cons q rest ih =>
    obtain ⟨k, v⟩ := q
    have hv := h (k, v) (by simp)
    simp only at hv
    simp [clearObjsD, hv, ih fun p hp => h p (by simp [hp])]

theorem clearObjsD_values_obj (l : List (String × Value)) :
    ∀ p ∈ clearObjsD l, isObjectJs p.2 = true := by
  intro p hp
  rw [clearObjsD_eq] at hp
  rcases List.mem_map.mp hp with ⟨q, _, rfl⟩
  simp [isObjectJs]

theorem nonObjEntries_append (x y : List (String × Value)) :
    nonObjEntries (x ++ y) = nonObjEntries x ++ nonObjEntries y := by
  simp [nonObjEntries, List.filter_append]

theorem nonObjEntries_of_obj (x : List (String × Value))
    (h : ∀ p ∈ x, isObjectJs p.2 = true) : nonObjEntries x = [] := by
  simp only [nonObjEntries, List.filter_eq_nil_iff]
  intro p hp
  simp [h p hp]

theorem nonObjEntries_idem (x : List (String × Value)) :
    nonObjEntries (nonObjEntries x) = nonObjEntries x := by
  simp [nonObjEntries, List.filter_filter]

theorem nonObjEntries_members (l : List (String × Value)) :
    ∀ p ∈ nonObjEntries l, isObjectJs p.2 = false := by
  intro p hp
  have := List.of_mem_filter hp
  rwa [Bool.not_eq_true'] at this

theorem memKey_filter_mono (k : String) (l : List (String × Value))
    (P Q : String × Value → Bool) (himp : ∀ q, P q = true → Q q = true)
    (h : memKey k (l.filter Q) = false) : memKey k (l.filter P) = false := by
  induction l with
  | nil => simp [memKey]
  | cons q rest ih =>
    rw [List.filter_cons] at h ⊢
    by_cases hp : P q = true
    · rw [if_pos (himp q hp)] at h
      simp only [memKey, Bool.or_eq_false_iff] at h
      rw [if_pos hp]
      simp only [memKey, Bool.or_eq_false_iff]
      exact ⟨h.1, ih h.2⟩
    · rw [if_neg hp]
      by_cases hq : Q q = true
      · rw [if_pos hq] at h
        simp only [memKey, Bool.or_eq_false_iff] at h
        exact ih h.2
      · rw [if_neg hq] at h
        exact ih h

theorem clearEntriesApp (l : List (String × Value)) (h : nodupKeysB l = true) :
    assignEntries (clearObjsD l) (nonObjEntries l) = clearObjsD l ++ nonObjEntries l := by
  apply assignEntries_eq_append
  · intro p hp
    rw [clearObjsD_eq, memKey_map_fst]
    apply memKey_filter_mono p.1 l _ (fun p => isObjectJs p.2)
    · intro q hq
      simp only [Bool.and_eq_true] at hq
      exact hq.1
    · exact memKey_filter_not l (fun p => isObjectJs p.2) h p hp
  · rw [nonObjEntries_eq]
    exact nodupKeysB_filter l _ h

theorem clearObjsD_idem_of (l : List (String × Value))
    (hIH : ∀ p ∈ l, isObjectJs p.2 = true →
      clearDefault (.vObj (clearDefault p.2)) = clearDefault p.2) :
    clearObjsD (clearObjsD l) = clearObjsD l := by
  induction l with
  | nil => simp [clearObjsD]
  | cons q rest ih =>
    obtain ⟨k, v⟩ := q
    have hrest : ∀ p ∈ rest, isObjectJs p.2 = true →
        clearDefault (.vObj (clearDefault p.2)) = clearDefault p.2 :=
      fun p hp => hIH p (by simp [hp])
    by_cases h : isObjectJs v = true
    · by_cases he : (clearDefault v).isEmpty = true
      · simp [clearObjsD, h, he, ih hrest]
      · have hv := hIH (k, v) (by simp) h
        simp only at hv
        simp only [Bool.not_eq_true] at he
        simp [clearObjsD, h, he, ih hrest, hv, isObjectJs_vObj]
    · rw [Bool.not_eq_true] at h
      simp [clearObjsD, h, ih hrest]

theorem wfEntries_mem (l : List (String × Value)) (h : wfEntries l = true) :
    ∀ p ∈ l, wfValue p.2 = true := by
  induction l with
  | nil => simp
  | cons q rest ih =>
    obtain ⟨k, v⟩ := q
    simp only [wfEntries, Bool.and_eq_true] at h
    intro p hp
    rcases List.mem_cons.mp hp with hh | hh
    · subst hh
      exact h.1
    · exact ih h.2 p hh

theorem wfElems_mem (a : List Value) (h : wfElems a = true) :
    ∀ v ∈ a, wfValue v = true := by
  induction a with
  | nil => simp
  | cons w rest ih =>
    simp only [wfElems, Bool.and_eq_true] at h
    intro v hv
    rcases List.mem_cons.mp hv with hh | hh
    · subst hh
      exact h.1
    · exact ih h.2 v hh

theorem wfEntries_arrEntries (a : List Value) (h : wfElems a = true) :
    ∀ i, wfEntries (arrEntries i a) = true := by
  induction a with
  | nil => intro i; simp [arrEntries, wfEntries]
  | cons v rest ih =>
    intro i
    simp only [wfElems, Bool.and_eq_true] at h
    simp only [arrEntries, wfEntries, Bool.and_eq_true]
    exact ⟨h.1, ih h.2 (i + 1)⟩

theorem clearArrD_eq (a : List Value) :
    ∀ i, clearArrD i a = clearObjsD (arrEntries i a) := by
  induction a with
  | nil => intro i; simp [clearArrD, arrEntries, clearObjsD]
  | cons v rest ih =>
    intro i
    by_cases h : isObjectJs v = true
    · simp [clearArrD, arrEntries, clearObjsD, h, ih (i + 1)]
    · rw [Bool.not_eq_true] at h
      simp [clearArrD, arrEntries, clearObjsD, h, ih (i + 1)]

theorem clearD_list_idem (l : List (String × Value)) (hnd : nodupKeysB l = true)
    (hIH : ∀ p ∈ l, isObjectJs p.2 = true →
      clearDefault (.vObj (clearDefault p.2)) = clearDefault p.2) :
    clearDefault (.vObj (assignEntries (clearObjsD l) (nonObjEntries l))) =
      assignEntries (clearObjsD l) (nonObjEntries l) := by
  rw [clearEntriesApp l hnd]
  have hstep : clearDefault (.vObj (clearObjsD l ++ nonObjEntries l)) =
      assignEntries (clearObjsD (clearObjsD l ++ nonObjEntries l))
        (nonObjEntries (clearObjsD l ++ nonObjEntries l)) := rfl
  rw [hstep, clearObjsD_append, nonObjEntries_append, clearObjsD_idem_of l hIH,
    clearObjsD_of_nonObj (nonObjEntries l) (nonObjEntries_members l),
    nonObjEntries_of_obj (clearObjsD l) (clearObjsD_values_obj l),
    nonObjEntries_idem, List.append_nil, List.nil_append]
  exact clearEntriesApp l hnd

theorem clearD_idem_aux : ∀ (n : Nat) (v : Value), sizeOf v ≤ n → wfValue v = true →
    isObjectJs v = true → clearDefault (.vObj (clearDefault v)) = clearDefault v := by
  intro n
  induction n with
  | zero =>
    intro v h
    exact absurd h (by cases v <;> simp)
  | succ n ih =>
    intro v hs hw ho
    cases v with
    | vObj l =>
      simp only [wfValue, Bool.and_eq_true] at hw
      have hIH : ∀ p ∈ l, isObjectJs p.2 = true →
          clearDefault (.vObj (clearDefault p.2)) = clearDefault p.2 := by
        intro p hp hop
        obtain ⟨k1, v1⟩ := p
        refine ih v1 ?_ (wfEntries_mem l hw.2 (k1, v1) hp) hop
        have h1 := List.sizeOf_lt_of_mem hp
        have h2 := Prod.mk.sizeOf_spec k1 v1
        have h3 : sizeOf (Value.vObj l) = 1 + sizeOf l := by simp
        omega
      exact clearD_list_idem l hw.1 hIH
    | vArr a =>
      simp only [wfValue] at hw
      have hIH : ∀ p ∈ arrEntries 0 a, isObjectJs p.2 = true →
          clearDefault (.vObj (clearDefault p.2)) = clearDefault p.2 := by
        intro p hp hop
        refine ih p.2 ?_ (wfElems_mem a hw p.2 (arrEntries_value_mem a 0 p hp)) hop
        have h1 := List.sizeOf_lt_of_mem (arrEntries_value_mem a 0 p hp)
        have h3 : sizeOf (Value.vArr a) = 1 + sizeOf a := by simp
        omega
      have hexp : clearDefault (.vArr a) =
          assignEntries (clearObjsD (arrEntries 0 a)) (nonObjEntries (arrEntries 0 a)) := by
        simp only [clearDefault, clearArrD_eq]
      rw [hexp]
      exact clearD_list_idem (arrEntries 0 a) (nodupKeysB_arrEntries a 0) hIH
    | vStr s => simp [isObjectJs] at ho
    | vNum i => simp [isObjectJs] at ho
    | vBool b => simp [isObjectJs] at ho
    | vNull => simp [isObjectJs] at ho

theorem clearD_idem (v : Value) (hw : wfValue v = true) (ho : isObjectJs v = true) :
    clearDefault (.vObj (clearDefault v)) = clearDefault v :=
  clearD_idem_aux (sizeOf v) v (le_refl _) hw ho

theorem clearObjsS_fixed (x : List (String × Value))
    (hx : ∀ p ∈ x, ∃ m, p.2 = Value.vObj m ∧ clearDefault (Value.vObj m) = m) :
    clearObjsS x = x := by
  induction x with
  | nil => simp [clearObjsS]
  | cons q rest ih =>
    obtain ⟨k, v⟩ := q
    rcases hx (k, v) (by simp) with ⟨m, hm, hcl⟩
    simp only at hm
    subst hm
    simp [clearObjsS, isObjectJs_vObj, hcl, ih fun p hp => hx p (by simp [hp])]

theorem mapReset_fixed (x : List (String × Value))
    (h : ∀ p ∈ x, isObjectJs p.2 = true) :
    (x.map fun p => (p.1, if isObjectJs p.2 then p.2 else Value.vObj [])) = x := by
  induction x with
  | nil => simp
  | cons q rest ih =>
    obtain ⟨k, v⟩ := q
    have hv := h (k, v) (by simp)
    simp only at hv
    simp [hv, ih fun p hp => h p (by simp [hp])]

theorem clearSkip_fixed (x : List (String × Value))
    (hx : ∀ p ∈ x, ∃ m, p.2 = Value.vObj m ∧ clearDefault (Value.vObj m) = m) :
    clearSkip (.vObj x) = x := by
  have hobj : ∀ p ∈ x, isObjectJs p.2 = true := by
    intro p hp
    rcases hx p hp with ⟨m, hm, _⟩
    rw [hm]
    exact isObjectJs_vObj m
  have h1 : nonObjEntries x = [] := nonObjEntries_of_obj x hobj
  simp only [clearSkip, h1, assignEntries_nil, clearObjsS_fixed x hx]
  exact mapReset_fixed x hobj

theorem clearSkip_idem (l : List (String × Value)) (hnd : nodupKeysB l = true)
    (hwf : wfEntries l = true) :
    clearSkip (.vObj (clearSkip (.vObj l))) = clearSkip (.vObj l) := by
  rw [clearSkip_eq l hnd]
  apply clearSkip_fixed
  intro p hp
  rcases List.mem_append.mp hp with hh | hh
  · rcases List.mem_map.mp hh with ⟨q, hq, rfl⟩
    refine ⟨clearDefault q.2, rfl, ?_⟩
    have hb : isObjectJs q.2 = true := by
      have := List.of_mem_filter hq
      simpa using this
    exact clearD_idem q.2 (wfEntries_mem l hwf q (List.mem_of_mem_filter hq)) hb
  · rcases List.mem_map.mp hh with ⟨q, hq, rfl⟩
    exact ⟨[], rfl, rfl⟩

/-- C9: `clear` is idempotent in both modes on any well-formed Structure
(well-formed meaning the pairwise-distinct keys JavaScript guarantees). -/
theorem C9_clear_idempotent (l : List (String × Value)) (b : Bool)
    (h : wfValue (.vObj l) = true) :
    clear (clear (.vObj l) b) b = clear (.vObj l) b := by
  simp only [wfValue, Bool.and_eq_true] at h
  cases b with
  | false =>
    simp only [clear, Bool.false_eq_true, if_false]
    rw [clearD_idem (.vObj l) (by simp [wfValue, h.1, h.2]) (isObjectJs_vObj l)]
  | true =>
    simp only [clear, if_true]
    rw [clearSkip_idem l h.1 h.2]

/-- C9, witness: idempotence at a concrete Structure in both modes. -/
theorem C9_clear_idempotent_witness :
    wfValue (.vObj [("a", Value.vObj []), ("b", .vNum 1), ("c", .vObj [("d", .vObj [])])]) =
      true ∧
    clear (clear (.vObj [("a", Value.vObj []), ("b", .vNum 1),
        ("c", .vObj [("d", .vObj [])])]) false) false =
      clear (.vObj [("a", Value.vObj []), ("b", .vNum 1), ("c", .vObj [("d", .vObj [])])])
        false ∧
    clear (clear (.vObj [("a", Value.vObj []), ("b", .vNum 1),
        ("c", .vObj [("d", .vObj [])])]) true) true =
      clear (.vObj [("a", Value.vObj []), ("b", .vNum 1), ("c", .vObj [("d", .vObj [])])])
        true :=
  ⟨by decide,
    C9_clear_idempotent [("a", .vObj []), ("b", .vNum 1), ("c", .vObj [("d", .vObj [])])]
      false (by decide),
    C9_clear_idempotent [("a", .vObj []), ("b", .vNum 1), ("c", .vObj [("d", .vObj [])])]
      true (by decide)⟩

/-! ### C1: round trip of flatten and unflatten -/

theorem mkData_eq (s : String) : String.mk s.data = s := by
  cases s
  rfl

theorem strData_append (a b : String) : (a ++ b).data = a.data ++ b.data := rfl

theorem strAppend_left_cancel (a b c : String) (h : a ++ b = a ++ c) : b = c := by
  have hd : a.data ++ b.data = a.data ++ c.data := by
    rw [← strData_append, ← strData_append, h]
  have := List.append_cancel_left hd
  rw [← mkData_eq b, ← mkData_eq c, this]

/-- Splitting a string free of the separator character yields the string
itself. -/
theorem splitAux_no_sep (c : Char) : ∀ (s cur : List Char), c ∉ s →
    splitAux [c] s 0 cur = [cur.reverse ++ s] := by
  intro s
  induction s with
  | nil => intro cur h; simp [splitAux]
  | cons x xs ih =>
    intro cur h
    have hx : c ≠ x := fun hh => h (by simp [hh])
    have hpre : [c].isPrefixOf (x :: xs) = false := by
      simp [List.isPrefixOf, beq_eq_false_iff_ne, hx]
    simp only [splitAux, hpre, Bool.false_eq_true, if_false]
    rw [ih (x :: cur) fun hh => h (by simp [hh])]
    simp

/-- Splitting at a separator occurrence after a separator-free chunk cuts
exactly there. -/
theorem splitAux_cut (c : Char) : ∀ (k r cur : List Char), c ∉ k →
    splitAux [c] (k ++ c :: r) 0 cur = (cur.reverse ++ k) :: splitAux [c] r 0 [] := by
  intro k
  induction k with
  | nil =>
    intro r cur _
    have hpre : [c].isPrefixOf (c :: r) = true := by simp [List.isPrefixOf]
    simp [splitAux, hpre]
  | cons x xs ih =>
    intro r cur h
    have hx : c ≠ x := fun hh => h (by simp [hh])
    have hpre : [c].isPrefixOf (x :: (xs ++ c :: r)) = false := by
      simp [List.isPrefixOf, beq_eq_false_iff_ne, hx]
    simp only [List.cons_append, splitAux, List.append_eq]
    rw [hpre]
    simp only [Bool.false_eq_true, if_false]
    rw [ih r (x :: cur) fun hh => h (by simp [hh])]
    simp

theorem splitJs_no_sep (c : Char) (sep k : String) (hsep : sep.data = [c])
    (hk : c ∉ k.data) : splitJs sep k = [k] := by
  simp only [splitJs, splitChars, hsep]
  rw [if_neg (by simp)]
  rw [splitAux_no_sep c k.data [] hk]
  simp [mkData_eq]

theorem splitJs_cut (c : Char) (sep k r : String) (hsep : sep.data = [c])
    (hk : c ∉ k.data) : splitJs sep (k ++ sep ++ r) = k :: splitJs sep r := by
  simp only [splitJs, splitChars, hsep]
  rw [if_neg (by simp), if_neg (by simp)]
  have hd : (k ++ sep ++ r).data = k.data ++ c :: r.data := by
    rw [strData_append, strData_append, hsep]
    simp
  rw [hd, splitAux_cut c k.data r.data [] hk]
  simp [mkData_eq]

theorem splitAux_ne_nil (sep : List Char) : ∀ (s : List Char) (skip : Nat) (cur : List Char),
    splitAux sep s skip cur ≠ [] := by
  intro s
  induction s with
  | nil => intro skip cur; cases skip <;> simp [splitAux]
  | cons x xs ih =>
    intro skip cur
    cases skip with
    | succ n => simpa [splitAux] using ih n cur
    | zero =>
      simp only [splitAux]
      split
      · simp
      · exact ih 0 (x :: cur)

theorem splitJs_ne_nil (c : Char) (sep s : String) (hsep : sep.data = [c]) :
    splitJs sep s ≠ [] := by
  simp only [splitJs, splitChars, hsep]
  rw [if_neg (by simp)]
  simp only [ne_eq, List.map_eq_nil_iff]
  exact splitAux_ne_nil _ _ 0 []

/-- The flattened entries in plain append form: the accumulation loop, with
the `flattened[key] = value` assignments replaced by concatenation of the
per-entry blocks. -/
def flatApp (sep : String) : List (String × Value) → List (String × Value)
  | [] => []
  | (k, v) :: rest =>
    (if isObjectJs v then (flattenValue sep v).map fun p => (k ++ sep ++ p.1, p.2)
     else [(k, v)]) ++ flatApp sep rest

theorem assignEntries_append (acc x y : List (String × Value)) :
    assignEntries acc (x ++ y) = assignEntries (assignEntries acc x) y := by
  simp only [assignEntries, List.foldl_append]

theorem setKey_eq_assign (acc : List (String × Value)) (k : String) (v : Value) :
    setKey acc k v = assignEntries acc [(k, v)] := rfl

theorem flattenObjEntries_eq_assign (sep : String) :
    ∀ (l acc : List (String × Value)),
    flattenObjEntries sep l acc = assignEntries acc (flatApp sep l) := by
  intro l
  induction l with
  | nil => intro acc; simp [flattenObjEntries, flatApp, assignEntries_nil]
  | cons q rest ih =>
    intro acc
    obtain ⟨k, v⟩ := q
    by_cases h : isObjectJs v = true
    · simp only [flattenObjEntries, h, if_true, flatApp, assignEntries_append]
      rw [ih]
    · rw [Bool.not_eq_true] at h
      simp only [flattenObjEntries, h, Bool.false_eq_true, if_false, flatApp,
        assignEntries_append]
      rw [ih, setKey_eq_assign]

mutual

/-- Round-trip-safe values for separator character `c`: no arrays, and every
nested object is nonempty with distinct keys that are nonempty and free of
the separator. -/
def roundVal (c : Char) : Value → Bool
  | .vObj m => !m.isEmpty && nodupKeysB m && roundEntries c m
  | .vArr _ => false
  | _ => true

/-- Round-trip-safe entry lists for separator character `c`. -/
def roundEntries (c : Char) : List (String × Value) → Bool
  | [] => true
  | (k, v) :: rest =>
    !(k == "") && !(k.data.contains c) && roundVal c v && roundEntries c rest

end

theorem not_contains_iff (c : Char) (l : List Char) : l.contains c = false ↔ c ∉ l := by
  rw [← Bool.not_eq_true]
  simp

theorem roundEntries_mem (c : Char) (l : List (String × Value))
    (h : roundEntries c l = true) : ∀ p ∈ l,
    p.1 ≠ "" ∧ c ∉ p.1.data ∧ roundVal c p.2 = true := by
  induction l with
  | nil => simp
  | cons q rest ih =>
    obtain ⟨k, v⟩ := q
    simp only [roundEntries, Bool.and_eq_true, Bool.not_eq_true'] at h
    intro p hp
    rcases List.mem_cons.mp hp with hh | hh
    · subst hh
      refine ⟨?_, ?_, h.1.2⟩
      · rw [← beq_eq_false_iff_ne]
        exact h.1.1.1
      · rw [← not_contains_iff]
        exact h.1.1.2
    · exact ih h.2 p hh

theorem sep_mem_derived (c : Char) (sep k x : String) (hsep : sep.data = [c]) :
    c ∈ (k ++ sep ++ x).data := by
  rw [strData_append, strData_append, hsep]
  simp

theorem cut_inj (c : Char) : ∀ (a1 a2 r1 r2 : List Char), c ∉ a1 → c ∉ a2 →
    a1 ++ c :: r1 = a2 ++ c :: r2 → a1 = a2 ∧ r1 = r2 := by
  intro a1
  induction a1 with
  | nil =>
    intro a2 r1 r2 _ h2 heq
    cases a2 with
    | nil => simpa using heq
    | cons y a2t =>
      simp only [List.nil_append, List.cons_append, List.cons.injEq] at heq
      exact absurd (heq.1 ▸ List.mem_cons_self y a2t) h2
  | cons x a1t ih =>
    intro a2 r1 r2 h1 h2 heq
    cases a2 with
    | nil =>
      simp only [List.cons_append, List.nil_append, List.cons.injEq] at heq
      exact absurd (heq.1 ▸ List.mem_cons_self x a1t) h1
    | cons y a2t =>
      simp only [List.cons_append, List.cons.injEq] at heq
      obtain ⟨rfl, heq2⟩ := heq
      have := ih a2t r1 r2 (fun hh => h1 (by simp [hh])) (fun hh => h2 (by simp [hh])) heq2
      exact ⟨by rw [this.1], this.2⟩

theorem derived_inj (c : Char) (sep k1 k2 x1 x2 : String) (hsep : sep.data = [c])
    (h1 : c ∉ k1.data) (h2 : c ∉ k2.data)
    (heq : k1 ++ sep ++ x1 = k2 ++ sep ++ x2) : k1 = k2 ∧ x1 = x2 := by
  have hd : k1.data ++ c :: x1.data = k2.data ++ c :: x2.data := by
    have e1 : (k1 ++ sep ++ x1).data = k1.data ++ c :: x1.data := by
      rw [strData_append, strData_append, hsep]
      simp
    have e2 : (k2 ++ sep ++ x2).data = k2.data ++ c :: x2.data := by
      rw [strData_append, strData_append, hsep]
      simp
    rw [← e1, ← e2, heq]
  have := cut_inj c k1.data k2.data x1.data x2.data h1 h2 hd
  constructor
  · rw [← mkData_eq k1, ← mkData_eq k2, this.1]
  · rw [← mkData_eq x1, ← mkData_eq x2, this.2]

theorem key_ne_derived (c : Char) (sep k1 k2 x : String) (hsep : sep.data = [c])
    (h1 : c ∉ k1.data) : k1 ≠ k2 ++ sep ++ x := by
  intro heq
  apply h1
  rw [heq]
  exact sep_mem_derived c sep k2 x hsep

theorem derived_keys_ne (c : Char) (sep : String) (hsep : sep.data = [c])
    (k1 k2 : String) (h1 : c ∉ k1.data) (h2 : c ∉ k2.data) (hne : k1 ≠ k2)
    (key1 key2 : String)
    (hk1 : key1 = k1 ∨ ∃ x, key1 = k1 ++ sep ++ x)
    (hk2 : key2 = k2 ∨ ∃ x, key2 = k2 ++ sep ++ x) : key1 ≠ key2 := by
  rcases hk1 with h1e | ⟨x1, h1e⟩ <;> rcases hk2 with h2e | ⟨x2, h2e⟩ <;>
    rw [h1e, h2e]
  · exact hne
  · exact key_ne_derived c sep k1 k2 x2 hsep h1
  · exact fun hh => key_ne_derived c sep k2 k1 x1 hsep h2 hh.symm
  · intro hh
    exact hne (derived_inj c sep k1 k2 x1 x2 hsep h1 h2 hh).1

theorem memKey_map_exists (key : String) (f : String → String) :
    ∀ x : List (String × Value),
    memKey key (x.map fun p => (f p.1, p.2)) = true → ∃ q ∈ x, key = f q.1 := by
  intro x
  induction x with
  | nil => simp [memKey]
  | cons q rest ih =>
    obtain ⟨k2, w⟩ := q
    simp only [List.map_cons, memKey, Bool.or_eq_true, beq_iff_eq]
    rintro (hh | hh)
    · exact ⟨(k2, w), by simp, hh⟩
    · rcases ih hh with ⟨q2, hq2, hk⟩
      exact ⟨q2, by simp [hq2], hk⟩

theorem flatApp_keys (sep : String) : ∀ (l : List (String × Value)) (key : String),
    memKey key (flatApp sep l) = true →
    ∃ p ∈ l, key = p.1 ∨ ∃ x, key = p.1 ++ sep ++ x := by
  intro l
  induction l with
  | nil => simp [flatApp, memKey]
  | cons q rest ih =>
    obtain ⟨k, v⟩ := q
    intro key h
    simp only [flatApp] at h
    rw [memKey_append] at h
    rcases Bool.or_eq_true_iff.mp h with hh | hh
    · by_cases ho : isObjectJs v = true
      · rw [if_pos ho] at hh
        rcases memKey_map_exists key _ _ hh with ⟨q2, _, hk⟩
        exact ⟨(k, v), by simp, Or.inr ⟨q2.1, hk⟩⟩
      · rw [if_neg ho] at hh
        simp only [memKey, Bool.or_eq_true, beq_iff_eq] at hh
        rcases hh with hh | hh
        · exact ⟨(k, v), by simp, Or.inl hh⟩
        · cases hh
    · rcases ih key hh with ⟨p, hp, hk⟩
      exact ⟨p, by simp [hp], hk⟩

theorem nodupKeysB_append (x y : List (String × Value)) :
    nodupKeysB (x ++ y) = true ↔
      nodupKeysB x = true ∧ nodupKeysB y = true ∧ ∀ p ∈ x, memKey p.1 y = false := by
  induction x with
  | nil => simp [nodupKeysB]
  | cons q rest ih =>
    obtain ⟨k, v⟩ := q
    constructor
    · intro h
      simp only [List.cons_append, nodupKeysB, Bool.and_eq_true, Bool.not_eq_true',
        List.append_eq] at h
      rw [memKey_append, Bool.or_eq_false_iff] at h
      rcases ih.mp h.2 with ⟨h1, h2, h3⟩
      refine ⟨?_, h2, ?_⟩
      · simp only [nodupKeysB, Bool.and_eq_true, Bool.not_eq_true']
        exact ⟨h.1.1, h1⟩
      · intro p hp
        rcases List.mem_cons.mp hp with hh | hh
        · subst hh
          exact h.1.2
        · exact h3 p hh
    · rintro ⟨h1, h2, h3⟩
      simp only [nodupKeysB, Bool.and_eq_true, Bool.not_eq_true'] at h1
      simp only [List.cons_append, nodupKeysB, Bool.and_eq_true, Bool.not_eq_true',
        List.append_eq]
      rw [memKey_append, Bool.or_eq_false_iff]
      exact ⟨⟨h1.1, h3 (k, v) (by simp)⟩,
        ih.mpr ⟨h1.2, h2, fun p hp => h3 p (by simp [hp])⟩⟩

theorem nodupKeysB_map_of_inj (f : String → String) (hf : ∀ a b, f a = f b → a = b) :
    ∀ x : List (String × Value), nodupKeysB x = true →
    nodupKeysB (x.map fun p => (f p.1, p.2)) = true := by
  intro x
  induction x with
  | nil => simp [nodupKeysB]
  | cons q rest ih =>
    obtain ⟨k, v⟩ := q
    simp only [nodupKeysB, Bool.and_eq_true, Bool.not_eq_true', List.map_cons]
    rintro ⟨h1, h2⟩
    refine ⟨?_, ih h2⟩
    rw [Bool.eq_false_iff]
    intro hmem
    rcases memKey_map_exists (f k) f rest hmem with ⟨q2, hq2, hk⟩
    have : k = q2.1 := hf k q2.1 hk
    have hm := memKey_of_mem q2 rest hq2
    rw [← this] at hm
    rw [hm] at h1
    cases h1

/-- Combined fuel-indexed statement: on round-trip-safe entries the
flattened keys are pairwise distinct, so the accumulator loop performs only
fresh assignments and `flatten` agrees with the plain append form. -/
theorem flatApp_good_aux (c : Char) (sep : String) (hsep : sep.data = [c]) :
    ∀ (n : Nat) (l : List (String × Value)), sizeOf l ≤ n → nodupKeysB l = true →
    roundEntries c l = true →
    nodupKeysB (flatApp sep l) = true ∧ flattenObjEntries sep l [] = flatApp sep l := by
  intro n
  induction n with
  | zero =>
    intro l h
    exact absurd h (by cases l <;> simp)
  | succ n ih =>
    intro l hs hnd hr
    have hpost : nodupKeysB (flatApp sep l) = true → flattenObjEntries sep l [] = flatApp sep l := by
      intro hnodup
      rw [flattenObjEntries_eq_assign, assignEntries_id _ hnodup]
    cases l with
    | nil => exact ⟨by simp [flatApp, nodupKeysB], by simp [flattenObjEntries, flatApp]⟩
    | cons q rest =>
      obtain ⟨k, v⟩ := q
      simp only [nodupKeysB, Bool.and_eq_true, Bool.not_eq_true'] at hnd
      simp only [roundEntries, Bool.and_eq_true, Bool.not_eq_true'] at hr
      have hk_ne : k ≠ "" := by rw [← beq_eq_false_iff_ne]; exact hr.1.1.1
      have hk_free : c ∉ k.data := by rw [← not_contains_iff]; exact hr.1.1.2
      have hrest : sizeOf rest ≤ n := by
        have h1 := List.cons.sizeOf_spec (k, v) rest
        have h2 := Prod.mk.sizeOf_spec k v
        omega
      have ihrest := ih rest hrest hnd.2 hr.2
      have hblock : nodupKeysB
          (if isObjectJs v then (flattenValue sep v).map fun p => (k ++ sep ++ p.1, p.2)
           else [(k, v)]) = true ∧
          (∀ p ∈ (if isObjectJs v then (flattenValue sep v).map fun p => (k ++ sep ++ p.1, p.2)
           else [(k, v)]), p.1 = k ∨ ∃ x, p.1 = k ++ sep ++ x) := by
        by_cases ho : isObjectJs v = true
        · cases v with
          | vObj m =>
            simp only [roundVal, Bool.and_eq_true, Bool.not_eq_true'] at hr
            have hm : sizeOf m ≤ n := by
              have h1 := List.cons.sizeOf_spec (k, Value.vObj m) rest
              have h2 := Prod.mk.sizeOf_spec k (Value.vObj m)
              have h3 : sizeOf (Value.vObj m) = 1 + sizeOf m := by simp
              omega
            have ihm := ih m hm hr.1.2.1.2 hr.1.2.2
            have hfv : flattenValue sep (.vObj m) = flatApp sep m := by
              simp only [flattenValue]
              exact ihm.2
            rw [if_pos ho, hfv]
            constructor
            · apply nodupKeysB_map_of_inj
              · intro a b hab
                exact strAppend_left_cancel (k ++ sep) a b (by
                  rw [String.append_assoc, String.append_assoc] at hab ⊢
                  exact hab)
              · exact ihm.1
            · intro p hp
              rcases List.mem_map.mp hp with ⟨q2, _, rfl⟩
              exact Or.inr ⟨q2.1, rfl⟩
          | vArr a => simp [roundVal] at hr
          | vStr s => simp [isObjectJs] at ho
          | vNum i => simp [isObjectJs] at ho
          | vBool b2 => simp [isObjectJs] at ho
          | vNull => simp [isObjectJs] at ho
        · rw [if_neg ho]
          refine ⟨by simp [nodupKeysB, memKey], ?_⟩
          intro p hp
          simp only [List.mem_singleton] at hp
          subst hp
          exact Or.inl rfl
      have hmain : nodupKeysB (flatApp sep ((k, v) :: rest)) = true := by
        simp only [flatApp]
        rw [nodupKeysB_append]
        refine ⟨hblock.1, ihrest.1, ?_⟩
        intro p hp
        rw [Bool.eq_false_iff]
        intro hmem
        rcases flatApp_keys sep rest p.1 hmem with ⟨q2, hq2, hk2⟩
        have hq2p := roundEntries_mem c rest hr.2 q2 hq2
        have hq2ne : k ≠ q2.1 := by
          intro hh
          have := memKey_of_mem q2 rest hq2
          rw [← hh] at this
          rw [this] at hnd
          exact absurd hnd.1 (by simp)
        exact derived_keys_ne c sep hsep k q2.1 hk_free hq2p.2.1 hq2ne p.1 p.1
          (hblock.2 p hp) hk2 rfl
      exact ⟨hmain, hpost hmain⟩

theorem flattenValue_eq_flatApp (c : Char) (sep : String) (hsep : sep.data = [c])
    (l : List (String × Value)) (hnd : nodupKeysB l = true)
    (hr : roundEntries c l = true) : flattenValue sep (.vObj l) = flatApp sep l := by
  simp only [flattenValue]
  exact (flatApp_good_aux c sep hsep (sizeOf l) l (le_refl _) hnd hr).2

theorem flatApp_ne_nil_aux (c : Char) (sep : String) (hsep : sep.data = [c]) :
    ∀ (n : Nat) (l : List (String × Value)), sizeOf l ≤ n →
    roundEntries c l = true → l ≠ [] → flatApp sep l ≠ [] := by
  intro n
  induction n with
  | zero =>
    intro l h
    exact absurd h (by cases l <;> simp)
  | succ n ih =>
    intro l hs hr hne
    cases l with
    | nil => exact absurd rfl hne
    | cons q rest =>
      obtain ⟨k, v⟩ := q
      simp only [roundEntries, Bool.and_eq_true, Bool.not_eq_true'] at hr
      simp only [flatApp]
      intro hb
      rw [List.append_eq_nil] at hb
      by_cases ho : isObjectJs v = true
      · rw [if_pos ho] at hb
        cases v with
        | vObj m =>
          simp only [roundVal, Bool.and_eq_true, Bool.not_eq_true'] at hr
          have hm : sizeOf m ≤ n := by
            have h1 := List.cons.sizeOf_spec (k, Value.vObj m) rest
            have h2 := Prod.mk.sizeOf_spec k (Value.vObj m)
            have h3 : sizeOf (Value.vObj m) = 1 + sizeOf m := by simp
            omega
          have hfv : flattenValue sep (.vObj m) = flatApp sep m :=
            flattenValue_eq_flatApp c sep hsep m hr.1.2.1.2 hr.1.2.2
          have hb1 := hb.1
          rw [hfv, List.map_eq_nil_iff] at hb1
          have hmne : m ≠ [] := by
            intro hh
            subst hh
            exact absurd hr.1.2.1.1 (by simp)
          exact absurd hb1 (ih m hm hr.1.2.2 hmne)
        | vArr a => simp [roundVal] at hr
        | vStr s => simp [isObjectJs] at ho
        | vNum i => simp [isObjectJs] at ho
        | vBool b2 => simp [isObjectJs] at ho
        | vNull => simp [isObjectJs] at ho
      · rw [if_neg ho] at hb
        exact absurd hb.1 (by simp)

theorem getKey_of_not_mem (l : List (String × Value)) (k : String)
    (h : memKey k l = false) : getKey l k = none := by
  induction l with
  | nil => rfl
  | cons q rest ih =>
    obtain ⟨k2, w⟩ := q
    simp only [memKey, Bool.or_eq_false_iff] at h
    have hne : (k2 == k) = false := by
      rw [beq_eq_false_iff_ne] at h ⊢
      exact fun hh => h.1 hh.symm
    simp only [getKey, hne, Bool.false_eq_true, if_false]
    exact ih h.2

theorem getKey_append_mid (A B : List (String × Value)) (k : String) (w : Value)
    (h : memKey k A = false) : getKey (A ++ (k, w) :: B) k = some w := by
  induction A with
  | nil => simp [getKey]
  | cons q rest ih =>
    obtain ⟨k2, w2⟩ := q
    simp only [memKey, Bool.or_eq_false_iff] at h
    have hne : (k2 == k) = false := by
      rw [beq_eq_false_iff_ne] at h ⊢
      exact fun hh => h.1 hh.symm
    simp only [List.cons_append, getKey, hne, Bool.false_eq_true, if_false]
    exact ih h.2

theorem setKey_append_mid (A B : List (String × Value)) (k : String) (w w' : Value)
    (h : memKey k A = false) : setKey (A ++ (k, w) :: B) k w' = A ++ (k, w') :: B := by
  induction A with
  | nil => simp [setKey]
  | cons q rest ih =>
    obtain ⟨k2, w2⟩ := q
    simp only [memKey, Bool.or_eq_false_iff] at h
    have hne : (k2 == k) = false := by
      rw [beq_eq_false_iff_ne] at h ⊢
      exact fun hh => h.1 hh.symm
    simp only [List.cons_append, setKey, hne, Bool.false_eq_true, if_false, List.append_eq]
    rw [ih h.2]

/-- Inserting below an object node is the root-level insertion wrapped in the
object constructor. -/
theorem insertParts_obj_rel (v : Value) : ∀ (parts : List String) (l : List (String × Value)),
    insertParts v (.vObj l) parts = (insertRoot v l parts).map .vObj := by
  intro parts
  induction parts with
  | nil => intro l; simp [insertParts, insertRoot, Except.map]
  | cons p rest ih =>
    intro l
    cases rest with
    | nil =>
      simp only [insertParts, insertRoot]
      split
      · simp [Except.map]
      · simp [Except.map]
    | cons q rest2 =>
      simp only [insertParts, insertRoot]
      split
      · exact ih l
      · simp only [bind, Except.bind]
        cases h : insertParts v
            (match getKey l p with
              | some w => if truthy w = true then w else Value.vObj []
              | none => Value.vObj []) (q :: rest2) with
        | ok c2 => simp [Except.map]
        | error e => simp [Except.map]

theorem unflattenEntries_append (sep : String) :
    ∀ (X Y acc : List (String × Value)),
    unflattenEntries sep (X ++ Y) acc =
      match unflattenEntries sep X acc with
      | .ok a => unflattenEntries sep Y a
      | .error e => .error e := by
  intro X
  induction X with
  | nil => intro Y acc; simp [unflattenEntries]
  | cons q rest ih =>
    intro Y acc
    obtain ⟨k, v⟩ := q
    simp only [List.cons_append, unflattenEntries, bind, Except.bind]
    cases h : insertRoot v acc (splitJs sep k) with
    | ok a => exact ih Y a
    | error e => rfl

theorem lift_one (c : Char) (sep : String) (hsep : sep.data = [c]) (k : String)
    (hk : k ≠ "") (hkf : c ∉ k.data) (x : String) (v : Value)
    (A B P : List (String × Value)) (hA : memKey k A = false) :
    insertRoot v (A ++ (k, .vObj P) :: B) (splitJs sep (k ++ sep ++ x)) =
      (insertRoot v P (splitJs sep x)).map fun P2 => A ++ (k, .vObj P2) :: B := by
  rw [splitJs_cut c sep k x hsep hkf]
  rcases hxsplit : splitJs sep x with _ | ⟨q, rest2⟩
  · exact absurd hxsplit (splitJs_ne_nil c sep x hsep)
  · simp only [insertRoot]
    rw [if_neg (by simp [hk])]
    rw [getKey_append_mid A B k (.vObj P) hA]
    simp only [truthy, if_true, bind, Except.bind]
    rw [insertParts_obj_rel]
    cases h : insertRoot v P (q :: rest2) with
    | ok P2 =>
      simp only [Except.map]
      rw [setKey_append_mid A B k (.vObj P) (.vObj P2) hA]
    | error e => simp [Except.map]

theorem lift_list (c : Char) (sep : String) (hsep : sep.data = [c]) (k : String)
    (hk : k ≠ "") (hkf : c ∉ k.data) :
    ∀ (F A B P : List (String × Value)), memKey k A = false →
    unflattenEntries sep (F.map fun p => (k ++ sep ++ p.1, p.2)) (A ++ (k, .vObj P) :: B) =
      (unflattenEntries sep F P).map fun P2 => A ++ (k, .vObj P2) :: B := by
  intro F
  induction F with
  | nil =>
    intro A B P hA
    simp [unflattenEntries, Except.map]
  | cons q rest ih =>
    intro A B P hA
    obtain ⟨x, v⟩ := q
    simp only [List.map_cons, unflattenEntries, bind, Except.bind]
    rw [lift_one c sep hsep k hk hkf x v A B P hA]
    cases h : insertRoot v P (splitJs sep x) with
    | ok P1 =>
      simp only [Except.map]
      exact ih A B P1 hA
    | error e => simp [Except.map]

theorem create_one (c : Char) (sep : String) (hsep : sep.data = [c]) (k : String)
    (hk : k ≠ "") (hkf : c ∉ k.data) (x : String) (v : Value)
    (acc : List (String × Value)) (hacc : memKey k acc = false) :
    insertRoot v acc (splitJs sep (k ++ sep ++ x)) =
      (insertRoot v [] (splitJs sep x)).map fun P2 => acc ++ [(k, .vObj P2)] := by
  rw [splitJs_cut c sep k x hsep hkf]
  rcases hxsplit : splitJs sep x with _ | ⟨q, rest2⟩
  · exact absurd hxsplit (splitJs_ne_nil c sep x hsep)
  · simp only [insertRoot]
    rw [if_neg (by simp [hk])]
    rw [getKey_of_not_mem acc k hacc]
    simp only [bind, Except.bind]
    rw [insertParts_obj_rel]
    cases h : insertRoot v [] (q :: rest2) with
    | ok P2 =>
      simp only [Except.map]
      rw [setKey_of_not_mem acc k (.vObj P2) hacc]
    | error e => simp [Except.map]

theorem block_insert (c : Char) (sep : String) (hsep : sep.data = [c]) (k : String)
    (hk : k ≠ "") (hkf : c ∉ k.data) (m F : List (String × Value)) (hF : F ≠ [])
    (hround : unflattenEntries sep F [] = .ok m)
    (acc : List (String × Value)) (hacc : memKey k acc = false) :
    unflattenEntries sep (F.map fun p => (k ++ sep ++ p.1, p.2)) acc =
      .ok (acc ++ [(k, .vObj m)]) := by
  rcases F with _ | ⟨⟨x0, v0⟩, F2⟩
  · exact absurd rfl hF
  simp only [List.map_cons, unflattenEntries, bind, Except.bind] at hround ⊢
  rw [create_one c sep hsep k hk hkf x0 v0 acc hacc]
  cases h0 : insertRoot v0 [] (splitJs sep x0) with
  | error e =>
    rw [h0] at hround
    cases hround
  | ok P0 =>
    rw [h0] at hround
    have hround2 : unflattenEntries sep F2 P0 = Except.ok m := hround
    simp only [Except.map]
    have ha : acc ++ [(k, Value.vObj P0)] = acc ++ (k, Value.vObj P0) :: [] := rfl
    rw [ha, lift_list c sep hsep k hk hkf F2 acc [] P0 hacc, hround2]
    simp [Except.map]

theorem round_aux (c : Char) (sep : String) (hsep : sep.data = [c]) :
    ∀ (n : Nat) (l : List (String × Value)), sizeOf l ≤ n → nodupKeysB l = true →
    roundEntries c l = true →
    ∀ acc : List (String × Value), (∀ p ∈ l, memKey p.1 acc = false) →
    unflattenEntries sep (flatApp sep l) acc = .ok (acc ++ l) := by
  intro n
  induction n with
  | zero =>
    intro l h
    exact absurd h (by cases l <;> simp)
  | succ n ih =>
    intro l hs hnd hr acc hacc
    cases l with
    | nil => simp [flatApp, unflattenEntries]
    | cons q rest =>
      obtain ⟨k, v⟩ := q
      simp only [nodupKeysB, Bool.and_eq_true, Bool.not_eq_true'] at hnd
      simp only [roundEntries, Bool.and_eq_true, Bool.not_eq_true'] at hr
      have hk_ne : k ≠ "" := by rw [← beq_eq_false_iff_ne]; exact hr.1.1.1
      have hk_free : c ∉ k.data := by rw [← not_contains_iff]; exact hr.1.1.2
      have hrest : sizeOf rest ≤ n := by
        have h1 := List.cons.sizeOf_spec (k, v) rest
        have h2 := Prod.mk.sizeOf_spec k v
        omega
      have hacc2 : ∀ (w : Value), ∀ p ∈ rest, memKey p.1 (acc ++ [(k, w)]) = false := by
        intro w p hp
        rw [memKey_append]
        have h1 := hacc p (by simp [hp])
        have h2 : (p.1 == k) = false := by
          rw [beq_eq_false_iff_ne]
          intro hh
          have hmem := memKey_of_mem p rest hp
          rw [hh] at hmem
          rw [hmem] at hnd
          exact absurd hnd.1 (by simp)
        simp [memKey, h1, h2]
      simp only [flatApp]
      rw [unflattenEntries_append]
      by_cases ho : isObjectJs v = true
      · cases v with
        | vObj m =>
          simp only [roundVal, Bool.and_eq_true, Bool.not_eq_true'] at hr
          have hm : sizeOf m ≤ n := by
            have h1 := List.cons.sizeOf_spec (k, Value.vObj m) rest
            have h2 := Prod.mk.sizeOf_spec k (Value.vObj m)
            have h3 : sizeOf (Value.vObj m) = 1 + sizeOf m := by simp
            omega
          have hfm : flattenValue sep (.vObj m) = flatApp sep m :=
            flattenValue_eq_flatApp c sep hsep m hr.1.2.1.2 hr.1.2.2
          have hmne : m ≠ [] := by
            intro hh
            subst hh
            exact absurd hr.1.2.1.1 (by simp)
          have hFne : flatApp sep m ≠ [] :=
            flatApp_ne_nil_aux c sep hsep (sizeOf m) m (le_refl _) hr.1.2.2 hmne
          have hroundm : unflattenEntries sep (flatApp sep m) [] = .ok m := by
            have := ih m hm hr.1.2.1.2 hr.1.2.2 [] (by intro p _; simp [memKey])
            simpa using this
          rw [if_pos ho, hfm,
            block_insert c sep hsep k hk_ne hk_free m (flatApp sep m) hFne hroundm acc
              (hacc (k, .vObj m) (by simp))]
          show unflattenEntries sep (flatApp sep rest) (acc ++ [(k, Value.vObj m)]) =
            Except.ok (acc ++ (k, Value.vObj m) :: rest)
          rw [ih rest hrest hnd.2 hr.2 (acc ++ [(k, Value.vObj m)]) (hacc2 (Value.vObj m))]
          simp
        | vArr a => simp [roundVal] at hr
        | vStr s => simp [isObjectJs] at ho
        | vNum i => simp [isObjectJs] at ho
        | vBool b2 => simp [isObjectJs] at ho
        | vNull => simp [isObjectJs] at ho
      · rw [if_neg ho]
        have h1 : unflattenEntries sep [(k, v)] acc = .ok (acc ++ [(k, v)]) := by
          simp only [unflattenEntries, bind, Except.bind]
          rw [splitJs_no_sep c sep k hsep hk_free]
          simp only [insertRoot]
          rw [if_neg (by simp [hk_ne])]
          rw [setKey_of_not_mem acc k v (hacc (k, v) (by simp))]
        rw [h1]
        show unflattenEntries sep (flatApp sep rest) (acc ++ [(k, v)]) =
          Except.ok (acc ++ (k, v) :: rest)
        rw [ih rest hrest hnd.2 hr.2 (acc ++ [(k, v)]) (hacc2 v)]
        simp

/-- C1, counterexample. The round trip fails on Structures the claim
covers: an empty nested Structure is dropped by `flatten` (its key is free
of the default separator); with the two-character separator `aa`, no key of
`{xa: {y: 1}}` contains `aa` (each key splits to itself), yet the flat key
`xaaay` re-splits at the wrong place; and an empty key is dropped. -/
theorem C1_counterexample :
    unflatten (.vObj (flattenValue "." (.vObj [("a", .vObj [])]))) "." ≠
      .ok (.vObj [("a", .vObj [])]) ∧
    splitJs "aa" "xa" = ["xa"] ∧ splitJs "aa" "y" = ["y"] ∧
    unflatten (.vObj (flattenValue "aa" (.vObj [("xa", .vObj [("y", .vNum 1)])]))) "aa" ≠
      .ok (.vObj [("xa", .vObj [("y", .vNum 1)])]) ∧
    unflatten (.vObj (flattenValue "." (.vObj [("", .vNum 1)]))) "." ≠
      .ok (.vObj [("", .vNum 1)]) := by
  refine ⟨by decide, by decide, by decide, by decide, by decide⟩

/-- C1, amended: for a single-character separator, `unflatten ∘ flatten` is
the identity on every Structure whose keys (at every depth) are nonempty,
distinct and free of the separator character, and which contains no array
and no empty nested Structure. -/
theorem C1_amended (c : Char) (sep : String) (hsep : sep.data = [c])
    (l : List (String × Value)) (hnd : nodupKeysB l = true)
    (hr : roundEntries c l = true) :
    unflatten (.vObj (flattenValue sep (.vObj l))) sep = .ok (.vObj l) := by
  rw [flattenValue_eq_flatApp c sep hsep l hnd hr]
  simp only [unflatten, isObjectJs, if_true, jsEntries]
  rw [round_aux c sep hsep (sizeOf l) l (le_refl _) hnd hr [] (by intro p _; simp [memKey])]
  simp [Except.map]

/-- C1, amended, witness: the round trip at a concrete two-level Structure
with the default separator. -/
theorem C1_amended_witness :
    ("." : String).data = ['.'] ∧
    nodupKeysB [("a", Value.vObj [("b", .vNum 1)]), ("c", .vNum 2)] = true ∧
    roundEntries '.' [("a", Value.vObj [("b", .vNum 1)]), ("c", .vNum 2)] = true ∧
    unflatten
        (.vObj (flattenValue "." (.vObj [("a", .vObj [("b", .vNum 1)]), ("c", .vNum 2)])))
        "." =
      .ok (.vObj [("a", .vObj [("b", .vNum 1)]), ("c", .vNum 2)]) :=
  ⟨rfl, by decide, by decide,
    C1_amended '.' "." rfl [("a", .vObj [("b", .vNum 1)]), ("c", .vNum 2)]
      (by decide) (by decide)⟩

end Linguify
